import Mathlib

/-!
Verification development for the `plugin_sw_sfra` service-worker repository.

The byte-level placeholder scanner and the streaming rewriter live in
`cartridge/client/default/js/sw/helpers/streamHelper.js`; the request
dispatcher, the cache-invalidation check and the install/fetch listeners live
in the main service-worker script.  Byte buffers (`Uint8Array` in the source)
are modelled as `List Nat`; strings used as cache keys and URLs are modelled
as `List Char`.  JavaScript index accesses `a[i]` (which yield `undefined` out
of range, and `undefined === undefined` is `true`) are modelled with
`List.get?` compared through `==` on `Option Nat`.
-/

namespace SW

/-- A placeholder configuration as produced by `encodePlaceholderConfigs` in
`streamHelper.js`: `placeholderBytes` is the byte encoding of the part of the
placeholder that follows the fixed `$sw` prefix; `cacheSuffix` identifies the
cached fragment the placeholder stands for. -/
structure PConfig where
  placeholderBytes : List Nat
  cacheSuffix : List Char
  deriving DecidableEq, Repr

/-- One entry of the `candidates` array built at the top of
`findMatchingPlaceholder`. -/
structure Candidate where
  config : PConfig
  bytes : List Nat
  length : Nat
  matched : Bool
  finished : Bool
  deriving DecidableEq, Repr

/-- The match record returned by `findMatchingPlaceholder` (`matchData` in the
source, after `end` and `start` have been filled in).  `start` is an `Int`
because the source computes `end - length - prefixBytes.length + 1`, which can
be negative.  The source's field `end` is called `endPos` here (`end` is a
Lean keyword). -/
structure MatchData where
  config : PConfig
  length : Nat
  start : Int
  endPos : Nat
  deriving DecidableEq, Repr

/-- The body of the `for` loop of `findMatchingPlaceholder`, applied to a
single candidate: update `matched` against byte `i` while `idx` is inside the
candidate, and set `finished` once `idx` reaches the candidate's last index. -/
def stepCand (bytes : List Nat) (i idx : Nat) (c : Candidate) : Candidate :=
  { c with
    matched := if idx < c.length then c.matched && (c.bytes.get? idx == bytes.get? i)
               else c.matched
    finished := if idx == c.length - 1 then true else c.finished }

/-- The `while` loop of `findMatchingPlaceholder`, with an explicit fuel for
structural recursion.  Each pass increments `i`, so `bytes.length - i` fuel is
always enough; when the supplied fuel is at least that, the fuel never runs
out before the loop condition turns false. -/
def findLoopAux (bytes : List Nat) : Nat → Nat → Nat → List Candidate → Bool → Bool →
    Nat × List Candidate × Bool
  | 0, i, _, cands, _, found => (i, cands, found)
  | fuel + 1, i, idx, cands, allFinished, found =>
    if i < bytes.length ∧ cands ≠ [] ∧ allFinished = false ∧ found = false then
      let updated := cands.map (stepCand bytes i idx)
      let fnd := found || updated.any (fun c => c.finished && c.matched)
      findLoopAux bytes fuel (i + 1) (idx + 1) (updated.filter (·.matched))
        (updated.all (·.finished)) fnd
    else (i, cands, found)

/-- The `while` loop of `findMatchingPlaceholder`.  Returns the final values of
`i`, `candidates` and `found`.  Candidates whose `matched` flag drops are
spliced out at the end of each pass, exactly as in the source. -/
def findLoop (bytes : List Nat) (i idx : Nat) (cands : List Candidate)
    (allFinished found : Bool) : Nat × List Candidate × Bool :=
  findLoopAux bytes (bytes.length - i) i idx cands allFinished found

/-- `findMatchingPlaceholder(bytes, startIndex, prefixBytes, placeholderConfigs)`
from `streamHelper.js`.  On success the source takes `candidates[0]` and sets
`end = i - 1` and `start = end - length - prefixBytes.length + 1`.  (If `found`
were true with an empty candidate list the source would crash on
`candidates[0].end`; that state is unreachable and modelled as `none`.) -/
def findMatchingPlaceholder (bytes : List Nat) (startIndex : Nat) (prefixBytes : List Nat)
    (placeholderConfigs : List PConfig) : Option MatchData :=
  let candidates := placeholderConfigs.map (fun config =>
    { config := config
      bytes := config.placeholderBytes
      length := config.placeholderBytes.length
      matched := config.placeholderBytes.get? 0 == bytes.get? startIndex
      finished := config.placeholderBytes.length == 1 : Candidate })
  match findLoop bytes (startIndex + 1) 1 candidates false false with
  | (i, c :: _, true) =>
      some { config := c.config, length := c.length, endPos := i - 1,
             start := (i : Int) - 1 - c.length - prefixBytes.length + 1 }
  | _ => none

/-- The inner `while` loop of `extractPlaceholderChunk`, with an explicit fuel
for structural recursion (every pass increments `pointer`, so
`bytes.length - pointer` fuel always suffices). -/
def matchPrefixLoopAux (bytes prefixBytes : List Nat) : Nat → Nat → Nat → Nat × Nat
  | 0, pointer, prefixIdx => (pointer, prefixIdx)
  | fuel + 1, pointer, prefixIdx =>
    if (bytes.get? pointer == prefixBytes.get? prefixIdx) ∧
        prefixIdx < prefixBytes.length ∧ pointer < bytes.length then
      matchPrefixLoopAux bytes prefixBytes fuel (pointer + 1) (prefixIdx + 1)
    else (pointer, prefixIdx)

/-- The inner `while` loop of `extractPlaceholderChunk` that advances
`pointer`/`prefixIdx` while the bytes keep agreeing with `prefixBytes`.
Returns the final `(pointer, prefixIdx)`. -/
def matchPrefixLoop (bytes prefixBytes : List Nat) (pointer prefixIdx : Nat) : Nat × Nat :=
  matchPrefixLoopAux bytes prefixBytes (bytes.length - pointer) pointer prefixIdx

/-- The outer `while` loop of `extractPlaceholderChunk`, with an explicit fuel
for structural recursion.  Every pass moves the pointer at least one byte
forward (the prefix run never retreats), so `bytes.length - pointer` fuel
always suffices. -/
def scanLoopAux (bytes prefixBytes : List Nat) (placeholderConfigs : List PConfig) :
    Nat → Nat → Option MatchData
  | 0, _ => none
  | fuel + 1, pointer =>
    if pointer < bytes.length then
      let pr := matchPrefixLoop bytes prefixBytes pointer 0
      let found := if pr.2 = prefixBytes.length ∧ pr.1 < bytes.length
                   then findMatchingPlaceholder bytes pr.1 prefixBytes placeholderConfigs
                   else none
      match found with
      | some m => some m
      | none => scanLoopAux bytes prefixBytes placeholderConfigs fuel (pr.1 + 1)
    else none

/-- The outer `while (pointer < len && !found)` loop of
`extractPlaceholderChunk`: run the prefix matcher from the current `pointer`;
on a full prefix hit (with bytes remaining) consult `findMatchingPlaceholder`;
otherwise reset `prefixIdx` and re-start one byte past where the prefix run
stopped (`pointer++` on the post-run pointer — this skips the bytes consumed
by a failed partial prefix run, exactly as the source does). -/
def scanLoop (bytes prefixBytes : List Nat) (placeholderConfigs : List PConfig)
    (pointer : Nat) : Option MatchData :=
  scanLoopAux bytes prefixBytes placeholderConfigs (bytes.length - pointer) pointer

/-- `LAST_BYTES_COUNT` from `streamHelper.js` ("Max placeholder length assumed"). -/
def LAST_BYTES_COUNT : Nat := 20

/-- `TypedArray.prototype.slice(0, e)` for a possibly negative end index `e`:
a negative index counts from the end of the array. -/
def jsSliceTo (xs : List Nat) (e : Int) : List Nat :=
  if e < 0 then xs.take (xs.length - (-e).toNat) else xs.take e.toNat

/-- The record returned by `extractPlaceholderChunk`; `null` fields are `none`. -/
structure ExtractResult where
  found : Option MatchData
  before : Option (List Nat)
  after : Option (List Nat)
  leftover : Option (List Nat)
  deriving DecidableEq, Repr

/-- `extractPlaceholderChunk(bytes, prefixBytes, placeholderConfigs, isFinal)`
from `streamHelper.js`: scan for a placeholder; on a match split the chunk at
the reported `start`/`end` positions; on no match keep the trailing
`LAST_BYTES_COUNT` bytes as `leftover` unless this is the final chunk. -/
def extractPlaceholderChunk (bytes prefixBytes : List Nat) (placeholderConfigs : List PConfig)
    (isFinal : Bool) : ExtractResult :=
  match scanLoop bytes prefixBytes placeholderConfigs 0 with
  | some m =>
      { found := some m
        before := some (jsSliceTo bytes m.start)
        after := some (bytes.drop (m.endPos + 1))
        leftover := none }
  | none =>
      if isFinal then
        { found := none, before := some bytes, after := none, leftover := none }
      else if bytes.length > LAST_BYTES_COUNT then
        { found := none
          before := some (bytes.take (bytes.length - LAST_BYTES_COUNT))
          after := none
          leftover := some (bytes.drop (bytes.length - LAST_BYTES_COUNT)) }
      else
        { found := none, before := none, after := none, leftover := some bytes }

/-! ### The stream rewriter (`createStream` in `streamHelper.js`)

`createStream` drives a `ReadableStream` whose `pull` dequeues work items,
scans the resolved bytes and enqueues output.  Queue items are promises that
resolve either to `{done, value, isBase}` (an upstream read), to
`{value, merge}` (leftover/after chunks pushed back by a previous pull) or to
the result of `fetchOrCachePart` for a matched placeholder.  The model stores
pending upstream reads and pending fragment fetches symbolically and resolves
them when they are dequeued; this preserves the source's resolution order
because reads are issued and awaited strictly first-in-first-out.  Fragment
resolution (`fetchOrCachePart`) is abstracted by a function
`resolve : PConfig → Option (List Nat)`; `none` models a rejected fetch. -/

/-- The byte encoding of `PLACEHOLDER_PREFIX = '$sw'`. -/
def swPrefixBytes : List Nat := [36, 115, 119]

/-- A fully resolved queue item: the fields of the object a queue promise
resolves to, with absent (`undefined`) fields mapped to `none`/`false`. -/
structure Item where
  value : Option (List Nat)
  done : Bool
  merge : Bool
  isBase : Bool
  deriving DecidableEq, Repr

/-- A queue entry of the stream: an already-resolved object, a pending
upstream read (`readChunk()`), or a pending fragment fetch
(`fetchOrCachePart(found.config, ...)`). -/
inductive QItem where
  | resolved (value : Option (List Nat)) (done merge isBase : Bool)
  | readChunk
  | fragFetch (config : PConfig)
  deriving DecidableEq, Repr

/-- Await one queue entry.  An upstream read consumes the next chunk of `rest`
(or yields `{done: true}` when the body is exhausted); a fragment fetch yields
the resolver's bytes, or `none` for a rejected fetch (which would make the
awaiting `pull` throw and error the stream). -/
def resolveQItem (resolve : PConfig → Option (List Nat)) (q : QItem)
    (rest : List (List Nat)) : Option (Item × List (List Nat)) :=
  match q with
  | .resolved v d m b => some (⟨v, d, m, b⟩, rest)
  | .readChunk =>
      match rest with
      | c :: r => some (⟨some c, false, false, true⟩, r)
      | [] => some (⟨none, true, false, true⟩, [])
  | .fragFetch cfg =>
      match resolve cfg with
      | some data => some (⟨some data, false, false, false⟩, rest)
      | none => none

/-- The `while (item.merge && this.queue.length)` loop of `nextFromQueue`:
keep absorbing the next queue entry into `item`, concatenating values
(`combineUint8Arrays`), or-ing `done`, and taking `merge`/`isBase` from the
absorbed entry. -/
def mergeLoop (resolve : PConfig → Option (List Nat)) (item : Item) (q : List QItem)
    (rest : List (List Nat)) : Option (Item × List QItem × List (List Nat)) :=
  match q with
  | [] => some (item, [], rest)
  | nq :: qtail =>
      if item.merge then
        match resolveQItem resolve nq rest with
        | none => none
        | some (next, rest') =>
            mergeLoop resolve
              { value := match next.value with
                         | some nv => some (item.value.getD [] ++ nv)
                         | none => item.value
                done := item.done || next.done
                merge := next.merge
                isBase := next.isBase } qtail rest'
      else some (item, q, rest)

/-- The state of one in-flight rewritten stream: the work queue, the chunks
not yet read from the upstream body, the `this.done` flag, and the bytes
enqueued to the output so far (concatenated). -/
structure SWState where
  queue : List QItem
  rest : List (List Nat)
  done : Bool
  out : List Nat
  deriving DecidableEq, Repr

/-- The final status of a rewritten stream: `closed` with the emitted bytes,
or `errored` after emitting some bytes (an awaited queue promise rejected —
e.g. a failed fragment fetch — which makes `pull` throw). `fuelOut` is the
artefact of running the recursive `pull` with finite fuel. -/
inductive StreamOutcome where
  | closed (out : List Nat)
  | errored (out : List Nat)
  | fuelOut
  deriving DecidableEq, Repr

/-- The recursive `pull` of `createStream`: close when the queue is empty or
`this.done` is set; otherwise await `nextFromQueue()`, or `done` into
`this.done`, close if the stream is done with no pending value, scan the
value with `extractPlaceholderChunk`, enqueue `before`, unshift (in this
order, so ending front-to-back: fragment fetch, `after`, leftover) and append
a new upstream read if this item came from upstream and the body is not
exhausted, then pull again. -/
def pullRun (resolve : PConfig → Option (List Nat)) (configs : List PConfig) :
    Nat → SWState → StreamOutcome
  | 0, _ => .fuelOut
  | fuel + 1, st =>
    match st.queue with
    | [] => .closed st.out
    | q0 :: qtail =>
      if st.done then .closed st.out
      else
        match resolveQItem resolve q0 st.rest with
        | none => .errored st.out
        | some (item0, rest0) =>
          match mergeLoop resolve item0 qtail rest0 with
          | none => .errored st.out
          | some (item, q', rest') =>
            let done' := st.done || item.done
            match item.value with
            | none => .closed st.out
            | some v =>
              let r := extractPlaceholderChunk v swPrefixBytes configs done'
              let q1 := match r.leftover with
                        | some l => QItem.resolved (some l) false true false :: q'
                        | none => q'
              let q2 := match r.after with
                        | some a => QItem.resolved (some a) false false false :: q1
                        | none => q1
              let q3 := match r.found with
                        | some m => QItem.fragFetch m.config :: q2
                        | none => q2
              let q4 := if !done' && item.isBase then q3 ++ [QItem.readChunk] else q3
              pullRun resolve configs fuel
                ⟨q4, rest', done', st.out ++ (r.before.getD [])⟩

/-- The raw configuration of one cached part, before encoding: `placeholder`
is the byte encoding of the full placeholder string. -/
structure CachedPart where
  placeholder : List Nat
  cacheSuffix : List Char
  deriving DecidableEq, Repr

/-- `encodePlaceholderConfigs(cachedParts)`: every placeholder must start with
`'$sw'` (otherwise the source throws, modelled as `none`); the stored
`placeholderBytes` are the bytes after the prefix. -/
def encodePlaceholderConfigs (cachedParts : List CachedPart) :
    Option (List Nat × List PConfig) :=
  if cachedParts.all (fun c => swPrefixBytes.isPrefixOf c.placeholder) then
    some (swPrefixBytes, cachedParts.map (fun c =>
      { placeholderBytes := c.placeholder.drop swPrefixBytes.length
        cacheSuffix := c.cacheSuffix }))
  else none

/-- Run the stream created by `createStream` over an upstream body delivered
as `chunks`, with `fuel` pull steps available: the initial queue holds one
upstream read, `this.done` is unset and nothing has been emitted. -/
def createStreamRun (cachedParts : List CachedPart) (resolve : PConfig → Option (List Nat))
    (chunks : List (List Nat)) (fuel : Nat) : StreamOutcome :=
  match encodePlaceholderConfigs cachedParts with
  | none => .errored []
  | some (_, configs) => pullRun resolve configs fuel ⟨[.readChunk], chunks, false, []⟩

/-- The two-chunk scanning pipeline of the stream (claim C3's shape): scan the
first chunk as non-final; if no match, prepend the returned carry-over to the
second chunk and scan the merged buffer as final.  The result collects the
pass-through bytes before the match, the match record, and the pass-through
bytes after it (the first chunk's `after` bytes are followed by the second
chunk when the match already completed in the first chunk). -/
def twoChunkScan (c1 c2 prefixBytes : List Nat) (cfgs : List PConfig) :
    List Nat × Option MatchData × List Nat :=
  let r1 := extractPlaceholderChunk c1 prefixBytes cfgs false
  match r1.found with
  | some _ => (r1.before.getD [], r1.found, (r1.after.getD []) ++ c2)
  | none =>
      let r2 := extractPlaceholderChunk ((r1.leftover.getD []) ++ c2) prefixBytes
        cfgs true
      ((r1.before.getD []) ++ (r2.before.getD []), r2.found, r2.after.getD [])

/-! ### The main service-worker script

Models for `cleanTriggeredCache`, the `install` listener (kill switch), the
`fetch` listener dispatch, `getAjaxCacheConfig` and `respondToAjax`.  Strings
are `List Char`; `String.prototype.indexOf(u) !== -1` is `List.IsInfix`. -/

/-- `JSON`-ordered association lookup: `map[trigger]` for the invalidation
map, whose keys are iterated in insertion order by `Object.keys`. -/
def mapLookup (map : List (List Char × List (List Char))) (k : List Char) :
    List (List Char) :=
  match map.find? (fun e => e.1 == k) with
  | some e => e.2
  | none => []

/-- The trigger lookup of `cleanTriggeredCache`: the first key of
`self.cacheCleanUrls` that occurs as a substring of the normalized request
URL, and its suffix list (`self.cacheCleanUrls[trigger] || []`). -/
def triggeredSuffixes (cacheCleanUrls : List (List Char × List (List Char)))
    (shortUrl : List Char) : List (List Char) :=
  match cacheCleanUrls.find? (fun e => decide (e.1 <:+: shortUrl)) with
  | some e => e.2
  | none => []

/-- `cleanTriggeredCache`, run over the keys of the active generation's cache:
every stored key whose URL contains `'.' + s` for some matched suffix `s` is
deleted; the function returns the keys that remain.  `shortUrl` is the
normalized request URL (the source strips the `Sites-...-Site/locale/` path
segment with a regex before matching). -/
def cleanTriggeredCache (cacheCleanUrls : List (List Char × List (List Char)))
    (shortUrl : List Char) (cacheKeys : List (List Char)) : List (List Char) :=
  let suffixes := triggeredSuffixes cacheCleanUrls shortUrl
  cacheKeys.filter (fun k => !(suffixes.any (fun s => decide (('.' :: s) <:+: k))))

/-- `clearOldCaches`: delete every cache whose name differs from `CACHE_ID`;
returns the names that survive. -/
def clearOldCaches (cacheNames : List (List Char)) (cacheId : List Char) :
    List (List Char) :=
  cacheNames.filter (fun n => n == cacheId)

/-- The observable effects of the `install` listener. -/
structure InstallEffects where
  remainingCaches : List (List Char)
  unregistered : Bool
  reloadedClients : Bool
  offlinePrecached : Bool
  skippedWaiting : Bool
  deriving DecidableEq, Repr

/-- The `install` listener: when `self.serverPreparedData?.swEnabled === false`
(strict equality: a missing flag is `undefined` and takes the normal path),
run `clearOldCaches`, unregister and reload every client; otherwise precache
the offline page and call `skipWaiting`. -/
def installListener (swEnabled : Option Bool) (cacheNames : List (List Char))
    (cacheId : List Char) : InstallEffects :=
  if swEnabled == some false then
    { remainingCaches := clearOldCaches cacheNames cacheId
      unregistered := true
      reloadedClients := true
      offlinePrecached := false
      skippedWaiting := false }
  else
    { remainingCaches := cacheNames
      unregistered := false
      reloadedClients := false
      offlinePrecached := true
      skippedWaiting := true }

/-- One entry of `serverPreparedData.cachedUrls`. -/
structure UrlConfig where
  url : List Char
  cacheSuffix : List Char
  deriving DecidableEq, Repr

/-- The request mode of a fetch event (`Request.mode`). -/
inductive RequestMode where
  | navigate
  | sameOriginMode
  | cors
  | noCors
  deriving DecidableEq, Repr

/-- The parts of a fetch event the dispatcher and the AJAX strategy inspect.
`urlSameOrigin` models `isSameOrigin(request.url)` and `cacheableStatic`
models `isCacheableStatic(request)` (a regex/destination test on the URL). -/
structure FetchRequest where
  url : List Char
  siteIdHeader : Option (List Char)
  localeHeader : Option (List Char)
  mode : RequestMode
  urlSameOrigin : Bool
  cacheableStatic : Bool
  deriving DecidableEq, Repr

/-- The global configuration the AJAX cache consults. -/
structure SWEnv where
  cachedUrls : List UrlConfig
  urlSiteId : List Char
  urlLocale : List Char
  deriving DecidableEq, Repr

/-- `String.prototype.replace(pat, repl)` with a string pattern: replace the
first occurrence only; a string with no occurrence is returned unchanged. -/
def replaceFirst : List Char → List Char → List Char → List Char
  | [], pat, repl => if pat = [] then repl else []
  | x :: xs, pat, repl =>
      if pat.isPrefixOf (x :: xs) then repl ++ (x :: xs).drop pat.length
      else x :: replaceFirst xs pat repl

/-- `getAjaxCacheConfig(event)`: `false` (here `none`) unless both identity
headers are present; otherwise the first configured URL whose template —
with the current request's site id and locale substituted back in — occurs
inside the request URL. -/
def getAjaxCacheConfig (env : SWEnv) (r : FetchRequest) : Option UrlConfig :=
  match r.siteIdHeader, r.localeHeader with
  | some siteId, some locale =>
      env.cachedUrls.find? (fun cfg =>
        let expectedUrl :=
          replaceFirst
            (replaceFirst cfg.url ('-' :: env.urlSiteId ++ ['-']) ('-' :: siteId ++ ['-']))
            ('/' :: env.urlLocale ++ ['/']) ('/' :: locale ++ ['/'])
        decide (expectedUrl <:+: r.url))
  | _, _ => none

/-- The strategy the `fetch` listener selects for a request. -/
inductive FetchAction where
  | respondAjax
  | invalidateOnly
  | respondNavigation
  | respondStatic
  | passThrough
  deriving DecidableEq, Repr

/-- The `fetch` listener's dispatch chain:
`isSameOrigin(request.url) && ajaxConfig` → AJAX strategy;
`request.mode === 'same-origin'` → invalidation check only (no override);
`request.mode === 'navigate'` → navigation strategy;
`isCacheableStatic(request)` → static cache strategy; otherwise untouched. -/
def fetchListener (env : SWEnv) (r : FetchRequest) : FetchAction :=
  if r.urlSameOrigin && (getAjaxCacheConfig env r).isSome then .respondAjax
  else if r.mode = .sameOriginMode then .invalidateOnly
  else if r.mode = .navigate then .respondNavigation
  else if r.cacheableStatic then .respondStatic
  else .passThrough

/-- A cached or network response: its body bytes and its `ok` flag. -/
structure CacheResponse where
  body : List Nat
  ok : Bool
  deriving DecidableEq, Repr

/-- `caches.match(key)` over the generation cache, modelled as an association
list (later `put`s shadow earlier ones). -/
def cacheMatch (cache : List (List Char × CacheResponse)) (key : List Char) :
    Option CacheResponse :=
  (cache.find? (fun e => e.1 == key)).map (·.2)

/-- `cache.put(key, resp)`. -/
def cachePut (cache : List (List Char × CacheResponse)) (key : List Char)
    (resp : CacheResponse) : List (List Char × CacheResponse) :=
  (key, resp) :: cache

/-- `respondToAjax(fetchEvent, config)`: with a config, look up
`siteId + '.' + locale + '.' + config.cacheSuffix`; on a hit return the cached
response (no fetch), on a miss fetch and — only when `ok` — store the clone
under the key.  Returns the response, whether a network fetch happened, and
the updated cache. -/
def respondToAjax (network : FetchRequest → CacheResponse)
    (cache : List (List Char × CacheResponse)) (r : FetchRequest)
    (config : Option UrlConfig) :
    CacheResponse × Bool × List (List Char × CacheResponse) :=
  match config with
  | some cfg =>
      let siteId := r.siteIdHeader.getD []
      let locale := r.localeHeader.getD []
      let key := siteId ++ '.' :: locale ++ '.' :: cfg.cacheSuffix
      match cacheMatch cache key with
      | some cached => (cached, false, cache)
      | none =>
          let resp := network r
          if resp.ok then (resp, true, cachePut cache key resp)
          else (resp, true, cache)
  | none => (network r, true, cache)

/-- What the navigation fetch (after `addSkipParamsToRequest`, with
`redirect: 'manual'`) comes back with: a network-level failure (the `fetch`
promise rejects, as do cache failures inside the `try` block), or a response
with a status, a redirect type, and a body delivered as chunks. -/
inductive NavFetchOutcome where
  | networkFailure
  | response (status : Nat) (opaqueRedirect : Bool) (bodyChunks : List (List Nat))
  deriving DecidableEq, Repr

/-- What `respondToNavigation` resolves with: the pre-cached offline page, the
synthetic basic-auth recovery page, the unmodified (redirect) response, or the
response whose body is the rewritten stream — the latter carrying the
stream's eventual outcome, which is *not* guarded by the `try/catch` of
`respondToNavigation` (the function has already returned by the time `pull`
runs). -/
inductive NavResult where
  | offlinePage
  | authRecovery
  | passthrough (status : Nat) (opaqueRedirect : Bool)
  | streamed (outcome : StreamOutcome)
  deriving DecidableEq, Repr

/-- `respondToNavigation(fetchEvent)`: any failure inside the `try` block is
answered with the offline page; a `401` yields `getBasicAuthFallbackResponse`;
a `301`/`302` status or an opaque-redirect response is returned unmodified;
everything else is wrapped in `createStream`. -/
def respondToNavigation (outcome : NavFetchOutcome) (cachedParts : List CachedPart)
    (resolve : PConfig → Option (List Nat)) (fuel : Nat) : NavResult :=
  match outcome with
  | .networkFailure => .offlinePage
  | .response status opaqueRedirect bodyChunks =>
      if status = 401 then .authRecovery
      else if status = 301 ∨ status = 302 ∨ opaqueRedirect = true then
        .passthrough status opaqueRedirect
      else .streamed (createStreamRun cachedParts resolve bodyChunks fuel)

/-- A concrete cached-URL configuration used by the C10 witness. -/
def c10cfg : UrlConfig :=
  ⟨"/s/-SiteA-/en/Cart-MiniCartShow".toList, "MiniCartShow".toList⟩


/-- First concrete request of the C10 witness. -/
def c10req1 : FetchRequest :=
  ⟨"/s/-SiteB-/fr/Cart-MiniCartShow?a=1".toList, some "SiteB".toList,
    some "fr".toList, .cors, true, false⟩


/-- Second concrete request of the C10 witness: same identity headers, a
different query string. -/
def c10req2 : FetchRequest :=
  ⟨"/s/-SiteB-/fr/Cart-MiniCartShow?b=2".toList, some "SiteB".toList,
    some "fr".toList, .cors, true, false⟩


/-! ### Basic loop lemmas -/

/-- With enough fuel, the fueled loop does not depend on the exact fuel. -/
theorem findLoopAux_fuel (bytes : List Nat) (fuel₁ fuel₂ i idx : Nat)
    (cands : List Candidate) (allFinished found : Bool)
    (h₁ : bytes.length - i ≤ fuel₁) (h₂ : bytes.length - i ≤ fuel₂) :
    findLoopAux bytes fuel₁ i idx cands allFinished found
      = findLoopAux bytes fuel₂ i idx cands allFinished found := by
  induction fuel₁ generalizing fuel₂ i idx cands allFinished found with
  | zero =>
      match fuel₂ with
      | 0 => rfl
      | fuel₂ + 1 =>
          rw [findLoopAux, findLoopAux]
          rw [if_neg (by omega)]
  | succ fuel₁ ih =>
      match fuel₂ with
      | 0 =>
          rw [findLoopAux, findLoopAux]
          rw [if_neg (by omega)]
      | fuel₂ + 1 =>
          rw [findLoopAux, findLoopAux]
          split
          · next h => exact ih fuel₂ (i + 1) (idx + 1) _ _ _ (by omega) (by omega)
          · rfl


/-- The one-step unfolding of `findLoop`, matching the source's `while`. -/
theorem findLoop_unfold (bytes : List Nat) (i idx : Nat) (cands : List Candidate)
    (allFinished found : Bool) :
    findLoop bytes i idx cands allFinished found
      = if i < bytes.length ∧ cands ≠ [] ∧ allFinished = false ∧ found = false then
          findLoop bytes (i + 1) (idx + 1)
            ((cands.map (stepCand bytes i idx)).filter (·.matched))
            ((cands.map (stepCand bytes i idx)).all (·.finished))
            (found || (cands.map (stepCand bytes i idx)).any (fun c => c.finished && c.matched))
        else (i, cands, found) := by
  unfold findLoop
  rcases hf : bytes.length - i with - | fuel
  · rw [findLoopAux]
    rw [if_neg (by omega)]
  · rw [findLoopAux]
    split
    · next h =>
        exact findLoopAux_fuel bytes fuel (bytes.length - (i + 1)) (i + 1) (idx + 1)
          _ _ _ (by omega) (by omega)
    · rfl


/-- With enough fuel, the fueled prefix loop does not depend on the fuel. -/
theorem matchPrefixLoopAux_fuel (bytes prefixBytes : List Nat)
    (fuel₁ fuel₂ pointer prefixIdx : Nat)
    (h₁ : bytes.length - pointer ≤ fuel₁) (h₂ : bytes.length - pointer ≤ fuel₂) :
    matchPrefixLoopAux bytes prefixBytes fuel₁ pointer prefixIdx
      = matchPrefixLoopAux bytes prefixBytes fuel₂ pointer prefixIdx := by
  induction fuel₁ generalizing fuel₂ pointer prefixIdx with
  | zero =>
      match fuel₂ with
      | 0 => rfl
      | fuel₂ + 1 =>
          rw [matchPrefixLoopAux, matchPrefixLoopAux]
          rw [if_neg (by omega)]
  | succ fuel₁ ih =>
      match fuel₂ with
      | 0 =>
          rw [matchPrefixLoopAux, matchPrefixLoopAux]
          rw [if_neg (by omega)]
      | fuel₂ + 1 =>
          rw [matchPrefixLoopAux, matchPrefixLoopAux]
          split
          · exact ih fuel₂ (pointer + 1) (prefixIdx + 1) (by omega) (by omega)
          · rfl


/-- The one-step unfolding of `matchPrefixLoop`, matching the source. -/
theorem matchPrefixLoop_unfold (bytes prefixBytes : List Nat) (pointer prefixIdx : Nat) :
    matchPrefixLoop bytes prefixBytes pointer prefixIdx
      = if (bytes.get? pointer == prefixBytes.get? prefixIdx) ∧
            prefixIdx < prefixBytes.length ∧ pointer < bytes.length then
          matchPrefixLoop bytes prefixBytes (pointer + 1) (prefixIdx + 1)
        else (pointer, prefixIdx) := by
  unfold matchPrefixLoop
  rcases hf : bytes.length - pointer with - | fuel
  · rw [matchPrefixLoopAux]
    rw [if_neg (by omega)]
  · rw [matchPrefixLoopAux]
    split
    · next h =>
        exact matchPrefixLoopAux_fuel bytes prefixBytes fuel
          (bytes.length - (pointer + 1)) (pointer + 1) (prefixIdx + 1) (by omega) (by omega)
    · rfl


/-- The final `pointer` of `matchPrefixLoop` never moves backwards. -/
theorem matchPrefixLoop_ge (bytes prefixBytes : List Nat) (pointer prefixIdx : Nat) :
    pointer ≤ (matchPrefixLoop bytes prefixBytes pointer prefixIdx).1 := by
  unfold matchPrefixLoop
  have : ∀ fuel p q, p ≤ (matchPrefixLoopAux bytes prefixBytes fuel p q).1 := by
    intro fuel
    induction fuel with
    | zero => intro p q; exact Nat.le_refl p
    | succ fuel ih =>
        intro p q
        rw [matchPrefixLoopAux]
        split
        · have := ih (p + 1) (q + 1)
          omega
        · exact Nat.le_refl p
  exact this _ pointer prefixIdx


/-- With enough fuel, the fueled scan loop does not depend on the fuel. -/
theorem scanLoopAux_fuel (bytes prefixBytes : List Nat) (placeholderConfigs : List PConfig)
    (fuel₁ fuel₂ pointer : Nat)
    (h₁ : bytes.length - pointer ≤ fuel₁) (h₂ : bytes.length - pointer ≤ fuel₂) :
    scanLoopAux bytes prefixBytes placeholderConfigs fuel₁ pointer
      = scanLoopAux bytes prefixBytes placeholderConfigs fuel₂ pointer := by
  induction fuel₁ generalizing fuel₂ pointer with
  | zero =>
      match fuel₂ with
      | 0 => rfl
      | fuel₂ + 1 =>
          rw [scanLoopAux, scanLoopAux]
          rw [if_neg (by omega)]
  | succ fuel₁ ih =>
      match fuel₂ with
      | 0 =>
          rw [scanLoopAux, scanLoopAux]
          rw [if_neg (by omega)]
      | fuel₂ + 1 =>
          rw [scanLoopAux, scanLoopAux]
          split
          · next hlt =>
              have hge := matchPrefixLoop_ge bytes prefixBytes pointer 0
              rcases hfound : (if (matchPrefixLoop bytes prefixBytes pointer 0).2
                    = prefixBytes.length ∧
                    (matchPrefixLoop bytes prefixBytes pointer 0).1 < bytes.length
                  then findMatchingPlaceholder bytes (matchPrefixLoop bytes prefixBytes pointer 0).1
                        prefixBytes placeholderConfigs
                  else none) with - | m
              · simp only [hfound]
                exact ih fuel₂ _ (by omega) (by omega)
              · simp only [hfound]
          · rfl


/-- The one-step unfolding of `scanLoop`, matching the source. -/
theorem scanLoop_unfold (bytes prefixBytes : List Nat) (placeholderConfigs : List PConfig)
    (pointer : Nat) :
    scanLoop bytes prefixBytes placeholderConfigs pointer
      = if pointer < bytes.length then
          match (if (matchPrefixLoop bytes prefixBytes pointer 0).2 = prefixBytes.length ∧
                    (matchPrefixLoop bytes prefixBytes pointer 0).1 < bytes.length
                 then findMatchingPlaceholder bytes
                        (matchPrefixLoop bytes prefixBytes pointer 0).1
                        prefixBytes placeholderConfigs
                 else none) with
          | some m => some m
          | none => scanLoop bytes prefixBytes placeholderConfigs
                      ((matchPrefixLoop bytes prefixBytes pointer 0).1 + 1)
        else none := by
  unfold scanLoop
  rcases hf : bytes.length - pointer with - | fuel
  · rw [scanLoopAux]
    rw [if_neg (by omega)]
  · rw [scanLoopAux]
    split
    · next hlt =>
        have hge := matchPrefixLoop_ge bytes prefixBytes pointer 0
        rcases hfound : (if (matchPrefixLoop bytes prefixBytes pointer 0).2
              = prefixBytes.length ∧
              (matchPrefixLoop bytes prefixBytes pointer 0).1 < bytes.length
            then findMatchingPlaceholder bytes (matchPrefixLoop bytes prefixBytes pointer 0).1
                  prefixBytes placeholderConfigs
            else none) with - | m
        · simp only [hfound]
          exact scanLoopAux_fuel bytes prefixBytes placeholderConfigs fuel _ _
            (by omega) (by omega)
        · simp only [hfound]
    · rfl


/-! ### Characterizing the prefix run -/

/-- When the full prefix lies at position `p` of the buffer, the prefix run
started `k` bytes into it consumes the rest of the prefix and stops right
after it, reporting `prefixIdx = prefixBytes.length`. -/
theorem matchPrefixLoop_full (w P : List Nat) (p k : Nat) (hpre : P <+: w.drop p)
    (hk : k ≤ P.length) :
    matchPrefixLoop w P (p + k) k = (p + P.length, P.length) := by
  rcases Nat.lt_or_ge k P.length with hlt | hge
  · obtain ⟨t, ht⟩ := hpre
    have hbyte : w.get? (p + k) = P.get? k := by
      have h := List.get?_drop w p k
      rw [← ht, List.get?_append hlt] at h
      exact h.symm
    have hwlt : p + k < w.length := by
      have hsome : P.get? k = some (P.get ⟨k, hlt⟩) := List.get?_eq_get hlt
      obtain ⟨hlt', -⟩ := List.get?_eq_some.mp (hbyte.trans hsome)
      exact hlt'
    rw [matchPrefixLoop_unfold]
    rw [if_pos ⟨by rw [hbyte]; exact beq_self_eq_true _, hlt, hwlt⟩]
    exact matchPrefixLoop_full w P p (k + 1) ⟨t, ht⟩ hlt
  · have hk' : k = P.length := Nat.le_antisymm hk hge
    subst hk'
    rw [matchPrefixLoop_unfold]
    rw [if_neg (fun hcond => absurd hcond.2.1 (lt_irrefl _))]
termination_by P.length - k

/-- When the bytes from `p` to the end of the buffer agree with the prefix
from index `k` on, but the buffer ends before the prefix does, the run
consumes everything up to the end of the buffer. -/
theorem matchPrefixLoop_partial (w P : List Nat) (p k : Nat) (hp : p ≤ w.length)
    (hagree : ∀ j, p + j < w.length → w.get? (p + j) = P.get? (k + j))
    (hend : w.length - p < P.length - k) :
    matchPrefixLoop w P p k = (w.length, k + (w.length - p)) := by
  rcases Nat.lt_or_ge p w.length with hlt | hge
  · have hb : w.get? p = P.get? k := by simpa using hagree 0 (by omega)
    rw [matchPrefixLoop_unfold]
    rw [if_pos ⟨by rw [hb]; exact beq_self_eq_true _, by omega, hlt⟩]
    have ih := matchPrefixLoop_partial w P (p + 1) (k + 1) (by omega)
      (fun j hj => by
        have h := hagree (j + 1) (by omega)
        have h1 : p + (j + 1) = p + 1 + j := by omega
        have h2 : k + (j + 1) = k + 1 + j := by omega
        rw [h1, h2] at h
        exact h)
      (by omega)
    rw [ih]
    congr 1
    omega
  · have hp' : p = w.length := by omega
    subst hp'
    rw [matchPrefixLoop_unfold]
    rw [if_neg (fun hcond => absurd hcond.2.2 (lt_irrefl _))]
    congr 1
    omega
termination_by w.length - p

/-! ### The candidate loop with a single candidate -/

/-- Running the candidate loop from pass `j ≥ 1` with one still-viable
candidate whose suffix `S` is fully present at `i₀`: the loop stops on the
pass that reaches the suffix's last byte, with `i = i₀ + S.length`, the
candidate matched and finished, and `found` set. -/
theorem findLoop_single_found (w S : List Nat) (cfg : PConfig) (i₀ j : Nat)
    (hj1 : 1 ≤ j) (hjS : j < S.length) (hpre : S <+: w.drop i₀) :
    findLoop w (i₀ + j) j [⟨cfg, S, S.length, true, false⟩] false false
      = (i₀ + S.length, [⟨cfg, S, S.length, true, true⟩], true) := by
  obtain ⟨t, ht⟩ := hpre
  have hbyte : w.get? (i₀ + j) = S.get? j := by
    have h := List.get?_drop w i₀ j
    rw [← ht, List.get?_append hjS] at h
    exact h.symm
  have hjlt : i₀ + j < w.length := by
    have hsome : S.get? j = some (S.get ⟨j, hjS⟩) := List.get?_eq_get hjS
    obtain ⟨hlt', -⟩ := List.get?_eq_some.mp (hbyte.trans hsome)
    exact hlt'
  rw [findLoop_unfold]
  rw [if_pos ⟨hjlt, by simp, rfl, rfl⟩]
  simp only [List.map_cons, List.map_nil]
  have hstep : stepCand w (i₀ + j) j ⟨cfg, S, S.length, true, false⟩
      = ⟨cfg, S, S.length, true, j == S.length - 1⟩ := by
    simp only [stepCand, hjS, if_pos, if_true, Bool.true_and, hbyte]
    rcases h : (j == S.length - 1) with - | -
    · simp [h, beq_self_eq_true]
    · simp [h, beq_self_eq_true]
  rw [hstep]
  by_cases hlast : j = S.length - 1
  · have hl : (j == S.length - 1) = true := by simp [hlast]
    rw [hl]
    simp only [Bool.and_true, Bool.true_and, List.any_cons, List.any_nil,
      List.all_cons, List.all_nil, List.filter, Bool.or_false, Bool.false_or]
    rw [findLoop_unfold]
    rw [if_neg (fun hcond => by simpa using hcond.2.2.2)]
    have : i₀ + j + 1 = i₀ + S.length := by omega
    rw [this]
  · have hl : (j == S.length - 1) = false := by simp [hlast]
    rw [hl]
    simp only [Bool.and_true, Bool.true_and, Bool.false_and, List.any_cons,
      List.any_nil, List.all_cons, List.all_nil, List.filter, Bool.or_false,
      Bool.false_or]
    have harith : i₀ + j + 1 = i₀ + (j + 1) := by omega
    rw [harith]
    exact findLoop_single_found w S cfg i₀ (j + 1) (by omega) (by omega) ⟨t, ht⟩
termination_by S.length - j

/-- The candidate loop with an empty candidate list exits immediately. -/
theorem findLoop_nil (w : List Nat) (i idx : Nat) (allFinished found : Bool) :
    findLoop w i idx [] allFinished found = (i, [], found) := by
  rw [findLoop_unfold]
  rw [if_neg (fun h => h.2.1 rfl)]

/-- Running the candidate loop from pass `j` with one still-viable candidate
whose suffix `S` is *not* fully present at `i₀` (the bytes seen so far agree
with `S`): the loop never sets `found`. -/
theorem findLoop_single_none (w S : List Nat) (cfg : PConfig) (i₀ j : Nat)
    (hjS : j < S.length) (hagree : (w.drop i₀).take j = S.take j)
    (hnpre : ¬ S <+: w.drop i₀) :
    (findLoop w (i₀ + j) j [⟨cfg, S, S.length, true, false⟩] false false).2.2
      = false := by
  by_cases hw : i₀ + j < w.length
  · rw [findLoop_unfold]
    rw [if_pos ⟨hw, by simp, rfl, rfl⟩]
    simp only [List.map_cons, List.map_nil]
    rcases hb : (S.get? j == w.get? (i₀ + j)) with - | -
    · have hstep : stepCand w (i₀ + j) j ⟨cfg, S, S.length, true, false⟩
          = ⟨cfg, S, S.length, false, j == S.length - 1⟩ := by
        simp only [stepCand, hjS, if_pos, if_true, Bool.true_and, hb]
        rcases h : (j == S.length - 1) with - | - <;> simp [h]
      rw [hstep]
      simp only [Bool.and_false, List.any_cons, List.any_nil, Bool.or_false,
        Bool.false_or]
      have hfilter : List.filter (fun x => x.matched)
          [(⟨cfg, S, S.length, false, j == S.length - 1⟩ : Candidate)] = [] := by
        simp [List.filter_cons]
      rw [hfilter, findLoop_nil]
    · have hbyte : S.get? j = w.get? (i₀ + j) := eq_of_beq hb
      have hbyte' : S[j]? = w[i₀ + j]? := by
        rw [← List.get?_eq_getElem?, ← List.get?_eq_getElem?]
        exact hbyte
      have htake : (w.drop i₀).take (j + 1) = S.take (j + 1) := by
        rw [List.take_succ, List.take_succ, hagree, List.getElem?_drop, ← hbyte']
      by_cases hlast : j = S.length - 1
      · exfalso
        have hj1 : j + 1 = S.length := by omega
        rw [hj1, List.take_length] at htake
        refine hnpre ?_
        rw [← htake]
        exact List.take_prefix _ _
      · have hstep : stepCand w (i₀ + j) j ⟨cfg, S, S.length, true, false⟩
            = ⟨cfg, S, S.length, true, false⟩ := by
          have hl : (j == S.length - 1) = false := by simp [hlast]
          simp only [stepCand, hjS, if_pos, if_true, Bool.true_and, hb, hl]
          simp
        rw [hstep]
        simp only [Bool.and_true, Bool.false_and, Bool.and_false, List.any_cons,
          List.any_nil, List.all_cons, List.all_nil, Bool.or_false, Bool.false_or]
        have hfilter : List.filter (fun x => x.matched)
            [(⟨cfg, S, S.length, true, false⟩ : Candidate)]
            = [(⟨cfg, S, S.length, true, false⟩ : Candidate)] := by
          simp [List.filter_cons]
        rw [hfilter]
        have harith : i₀ + j + 1 = i₀ + (j + 1) := by omega
        rw [harith]
        exact findLoop_single_none w S cfg i₀ (j + 1) (by omega) htake hnpre
  · rw [findLoop_unfold]
    rw [if_neg (fun hcond => absurd hcond.1 hw)]
termination_by S.length - j

/-- With a single candidate whose suffix `S` (at least two bytes) is fully
present at `startIndex`, `findMatchingPlaceholder` reports the match with
`end` on the suffix's last byte and `start = startIndex - prefixBytes.length`. -/
theorem find_single_found (w S P : List Nat) (cfg : PConfig)
    (hcfg : cfg.placeholderBytes = S) (h2 : 2 ≤ S.length) (i₀ : Nat)
    (hpre : S <+: w.drop i₀) :
    findMatchingPlaceholder w i₀ P [cfg]
      = some ⟨cfg, S.length, (i₀ : Int) - P.length, i₀ + S.length - 1⟩ := by
  unfold findMatchingPlaceholder
  simp only [List.map_cons, List.map_nil, hcfg]
  have hb0 : S.get? 0 = w.get? i₀ := by
    obtain ⟨t, ht⟩ := hpre
    have h := List.get?_drop w i₀ 0
    rw [← ht, List.get?_append (by omega)] at h
    simpa using h
  have hm : (S.get? 0 == w.get? i₀) = true := by rw [hb0]; exact beq_self_eq_true _
  have hf : (S.length == 1) = false := beq_eq_false_iff_ne.mpr (by omega)
  rw [hm, hf]
  have hloop := findLoop_single_found w S cfg i₀ 1 (by omega) (by omega) hpre
  rw [hloop]
  simp only [Option.some.injEq, MatchData.mk.injEq, eq_self_iff_true, true_and,
    and_true]
  push_cast
  ring

/-- With a single candidate whose suffix `S` (at least two bytes) is *not*
fully present at `startIndex`, `findMatchingPlaceholder` reports no match. -/
theorem find_single_none (w S P : List Nat) (cfg : PConfig)
    (hcfg : cfg.placeholderBytes = S) (h2 : 2 ≤ S.length) (i₀ : Nat)
    (hnpre : ¬ S <+: w.drop i₀) :
    findMatchingPlaceholder w i₀ P [cfg] = none := by
  unfold findMatchingPlaceholder
  simp only [List.map_cons, List.map_nil, hcfg]
  have hf : (S.length == 1) = false := beq_eq_false_iff_ne.mpr (by omega)
  rw [hf]
  rcases hb0 : (S.get? 0 == w.get? i₀) with - | -
  · by_cases hw : i₀ + 1 < w.length
    · rw [findLoop_unfold]
      rw [if_pos ⟨hw, by simp, rfl, rfl⟩]
      simp only [List.map_cons, List.map_nil]
      have hstep : stepCand w (i₀ + 1) 1 ⟨cfg, S, S.length, false, false⟩
          = ⟨cfg, S, S.length, false, 1 == S.length - 1⟩ := by
        simp only [stepCand, Bool.false_and, ite_self]
        rcases h : (1 == S.length - 1) with - | - <;> simp [h]
      rw [hstep]
      simp only [Bool.and_false, List.any_cons, List.any_nil, Bool.or_false,
        Bool.false_or]
      have hfilter : List.filter (fun x => x.matched)
          [(⟨cfg, S, S.length, false, 1 == S.length - 1⟩ : Candidate)] = [] := by
        simp [List.filter_cons]
      rw [hfilter, findLoop_nil]
    · rw [findLoop_unfold]
      rw [if_neg (fun hcond => absurd hcond.1 hw)]
  · have hbyte : S.get? 0 = w.get? i₀ := eq_of_beq hb0
    have hbyte' : S[0]? = w[i₀]? := by
      rw [← List.get?_eq_getElem?, ← List.get?_eq_getElem?]
      exact hbyte
    have htake : (w.drop i₀).take 1 = S.take 1 := by
      rw [List.take_succ, List.take_succ, List.take_zero, List.take_zero,
        List.getElem?_drop, Nat.add_zero, ← hbyte']
    have hloop := findLoop_single_none w S cfg i₀ 1 (by omega) htake hnpre
    rcases hfl : findLoop w (i₀ + 1) 1 [⟨cfg, S, S.length, true, false⟩] false false
      with ⟨i', cands', fnd'⟩
    rw [hfl] at hloop
    simp only at hloop
    subst hloop
    rcases cands' with - | ⟨c, cs⟩ <;> rfl

/-! ### The scan loop over clean buffers (prefix head byte 36 = `$`) -/

/-- The scan loop past the end of the buffer yields no match. -/
theorem scan_end (w prefixBytes : List Nat) (cfgs : List PConfig) (p : Nat)
    (hp : w.length ≤ p) : scanLoop w prefixBytes cfgs p = none := by
  rw [scanLoop_unfold]
  rw [if_neg (by omega)]

/-- A position that does not hold the prefix's first byte `36` is skipped. -/
theorem scan_skip1 (w : List Nat) (cfgs : List PConfig) (p : Nat)
    (hb : w.get? p ≠ some 36) (hp : p < w.length) :
    scanLoop w swPrefixBytes cfgs p = scanLoop w swPrefixBytes cfgs (p + 1) := by
  have hpr : matchPrefixLoop w swPrefixBytes p 0 = (p, 0) := by
    rw [matchPrefixLoop_unfold]
    rw [if_neg (fun h => hb (eq_of_beq h.1))]
  rw [scanLoop_unfold, if_pos hp, hpr]
  rw [if_neg (fun h => by simpa [swPrefixBytes] using h.1)]

/-- Scanning a region with no `36` byte up to the end of the buffer yields no
match. -/
theorem scan_clean_from (w : List Nat) (cfgs : List PConfig) (p : Nat)
    (hclean : ∀ q, p ≤ q → q < w.length → w.get? q ≠ some 36) :
    scanLoop w swPrefixBytes cfgs p = none := by
  by_cases hp : p < w.length
  · rw [scan_skip1 w cfgs p (hclean p le_rfl hp) hp]
    exact scan_clean_from w cfgs (p + 1) (fun q hq hql => hclean q (by omega) hql)
  · exact scan_end w swPrefixBytes cfgs p (by omega)
termination_by w.length - p

/-- Scanning `u ++ t`, where `u` is free of the byte `36` and `t` is a proper
prefix of the token `swPrefixBytes ++ S` (with `36` absent from `S`), finds no
match from any start position: the token never completes inside the buffer. -/
theorem scan_no_token_from (u t S : List Nat) (cfg : PConfig)
    (hcfg : cfg.placeholderBytes = S) (h2 : 2 ≤ S.length) (hSd : (36 : Nat) ∉ S)
    (hu : (36 : Nat) ∉ u) (ht : t <+: swPrefixBytes ++ S)
    (htlen : t.length < 3 + S.length) (p : Nat) :
    scanLoop (u ++ t) swPrefixBytes [cfg] p = none := by
  obtain ⟨r, hr⟩ := ht
  have hlen : (u ++ t).length = u.length + t.length := List.length_append u t
  by_cases hplen : p < (u ++ t).length
  · by_cases hpu : p = u.length
    · subst hpu
      have hdropt : (u ++ t).drop u.length = t := List.drop_left u t
      rcases Nat.lt_trichotomy t.length 3 with ht3 | ht3 | ht3
      · -- a partial prefix run reaches the end of the buffer
        have hagree : ∀ j, u.length + j < (u ++ t).length →
            (u ++ t).get? (u.length + j) = swPrefixBytes.get? (0 + j) := by
          intro j hj
          have hjt : j < t.length := by omega
          rw [List.get?_append_right (by omega)]
          have h1 : u.length + j - u.length = j := by omega
          rw [h1]
          have h2' : t.get? j = (t ++ r).get? j :=
            (List.get?_append hjt).symm
          rw [h2', hr, List.get?_append (by simp [swPrefixBytes]; omega)]
          simp
        have hpr := matchPrefixLoop_partial (u ++ t) swPrefixBytes u.length 0
          (by omega) hagree (by simp [swPrefixBytes]; omega)
        rw [scanLoop_unfold, if_pos hplen, hpr]
        rw [if_neg (fun h => absurd h.2 (lt_irrefl _))]
        exact scan_end _ _ _ _ (by omega)
      · -- the run consumes exactly the prefix and hits the end of the buffer
        have htP : t = swPrefixBytes := by
          have h1 : (t ++ r).take 3 = t.take 3 :=
            List.take_append_of_le_length (by omega)
          rw [hr] at h1
          have h2' : (swPrefixBytes ++ S).take 3 = swPrefixBytes :=
            List.take_left' (by simp [swPrefixBytes])
          rw [h2'] at h1
          rw [h1, List.take_of_length_le (by omega)]
        have hpre : swPrefixBytes <+: (u ++ t).drop u.length := by
          rw [hdropt, htP]
        have hpr := matchPrefixLoop_full (u ++ t) swPrefixBytes u.length 0 hpre
          (by omega)
        rw [Nat.add_zero] at hpr
        rw [scanLoop_unfold, if_pos hplen, hpr]
        rw [if_neg (by simp [swPrefixBytes]; omega)]
        exact scan_end _ _ _ _ (by simp [swPrefixBytes]; omega)
      · -- the full prefix is present but the suffix runs off the buffer
        have htP : t.take 3 = swPrefixBytes := by
          have h1 : (t ++ r).take 3 = t.take 3 :=
            List.take_append_of_le_length (by omega)
          rw [hr] at h1
          have h2' : (swPrefixBytes ++ S).take 3 = swPrefixBytes :=
            List.take_left' (by simp [swPrefixBytes])
          rw [h2'] at h1
          exact h1.symm
        have hpre : swPrefixBytes <+: (u ++ t).drop u.length := by
          rw [hdropt, ← htP]
          exact List.take_prefix 3 t
        have hpr := matchPrefixLoop_full (u ++ t) swPrefixBytes u.length 0 hpre
          (by omega)
        rw [Nat.add_zero] at hpr
        have hplen3 : u.length + swPrefixBytes.length < (u ++ t).length := by
          simp [swPrefixBytes]
          omega
        rw [scanLoop_unfold, if_pos hplen, hpr]
        rw [if_pos ⟨rfl, hplen3⟩]
        have hs : (u ++ t).drop (u.length + swPrefixBytes.length) = t.drop 3 := by
          have hd := List.drop_drop 3 u.length (u ++ t)
          rw [hdropt] at hd
          have hsw : swPrefixBytes.length = 3 := rfl
          rw [hsw, ← hd]
        have hnpre : ¬ S <+: (u ++ t).drop (u.length + swPrefixBytes.length) := by
          rw [hs]
          intro hSp
          have h1 := hSp.length_le
          have h2' : (t.drop 3).length = t.length - 3 := List.length_drop 3 t
          omega
        rw [find_single_none (u ++ t) S swPrefixBytes cfg hcfg h2 _ hnpre]
        exact scan_no_token_from u t S cfg hcfg h2 hSd hu ⟨r, hr⟩ htlen
          (u.length + swPrefixBytes.length + 1)
    · -- not at the token start: the byte here is never 36
      have hb : (u ++ t).get? p ≠ some 36 := by
        rcases Nat.lt_or_ge p u.length with hpl | hpg
        · rw [List.get?_append hpl]
          intro hcon
          exact absurd (List.get?_mem hcon) (by simpa using hu)
        · have hpg' : u.length < p := by omega
          rw [List.get?_append_right (by omega)]
          intro hcon
          have hk : p - u.length < t.length := by omega
          have h1 : t.get? (p - u.length) = (t ++ r).get? (p - u.length) :=
            (List.get?_append hk).symm
          rw [h1, hr] at hcon
          rcases Nat.lt_or_ge (p - u.length) 3 with h3 | h3
          · rw [List.get?_append (by simp [swPrefixBytes]; omega)] at hcon
            have h12 : p - u.length = 1 ∨ p - u.length = 2 := by omega
            rcases h12 with h12 | h12 <;> rw [h12] at hcon <;>
              simp [swPrefixBytes] at hcon
          · rw [List.get?_append_right (by simp [swPrefixBytes]; omega)] at hcon
            exact absurd (List.get?_mem hcon) (by simpa using hSd)
      rw [scan_skip1 _ _ p hb hplen]
      exact scan_no_token_from u t S cfg hcfg h2 hSd hu ⟨r, hr⟩ htlen (p + 1)
  · exact scan_end _ _ _ _ (by omega)
termination_by (u ++ t).length - p

/-- Scanning `u ++ ($sw ++ (S ++ v))`, where `u` is free of the byte `36` and
the single candidate's suffix is `S` (at least two bytes): from any start
position inside `u` (or at its end) the scanner reports the token, with
`start = u.length` and `end` on the suffix's last byte. -/
theorem scan_finds_token (u S v : List Nat) (cfg : PConfig)
    (hcfg : cfg.placeholderBytes = S) (h2 : 2 ≤ S.length) (hu : (36 : Nat) ∉ u)
    (p : Nat) (hp : p ≤ u.length) :
    scanLoop (u ++ (swPrefixBytes ++ (S ++ v))) swPrefixBytes [cfg] p
      = some ⟨cfg, S.length, (u.length : Int), u.length + 3 + S.length - 1⟩ := by
  have hwlen : (u ++ (swPrefixBytes ++ (S ++ v))).length
      = u.length + (3 + (S.length + v.length)) := by
    simp [swPrefixBytes]
    omega
  by_cases hpu : p < u.length
  · have hb : (u ++ (swPrefixBytes ++ (S ++ v))).get? p ≠ some 36 := by
      rw [List.get?_append hpu]
      intro hcon
      exact absurd (List.get?_mem hcon) (by simpa using hu)
    rw [scan_skip1 _ _ p hb (by omega)]
    exact scan_finds_token u S v cfg hcfg h2 hu (p + 1) (by omega)
  · have hpu' : p = u.length := by omega
    subst hpu'
    have hdrop : (u ++ (swPrefixBytes ++ (S ++ v))).drop u.length
        = swPrefixBytes ++ (S ++ v) := List.drop_left u _
    have hpre : swPrefixBytes <+:
        (u ++ (swPrefixBytes ++ (S ++ v))).drop u.length := by
      rw [hdrop]
      exact List.prefix_append _ _
    have hpr := matchPrefixLoop_full (u ++ (swPrefixBytes ++ (S ++ v)))
      swPrefixBytes u.length 0 hpre (by omega)
    rw [Nat.add_zero] at hpr
    have hdrop3 : (u ++ (swPrefixBytes ++ (S ++ v))).drop
        (u.length + swPrefixBytes.length) = S ++ v := by
      have hd := List.drop_drop swPrefixBytes.length u.length
        (u ++ (swPrefixBytes ++ (S ++ v)))
      rw [hdrop] at hd
      rw [← hd, List.drop_left]
    have hSpre : S <+: (u ++ (swPrefixBytes ++ (S ++ v))).drop
        (u.length + swPrefixBytes.length) := by
      rw [hdrop3]
      exact List.prefix_append _ _
    rw [scanLoop_unfold, if_pos (by omega), hpr]
    rw [if_pos ⟨rfl, by simp [swPrefixBytes] at hwlen ⊢; omega⟩]
    rw [find_single_found _ S swPrefixBytes cfg hcfg h2 _ hSpre]
    have hsw : swPrefixBytes.length = 3 := rfl
    rw [hsw]
    simp only [Option.some.injEq, MatchData.mk.injEq, eq_self_iff_true, true_and,
      and_true]
    push_cast
    ring
termination_by u.length - p

/-- Positions of a buffer free of the byte `36` never hold it. -/
theorem get?_ne_of_not_mem (w : List Nat) (hw : (36 : Nat) ∉ w) (q : Nat) :
    w.get? q ≠ some 36 := fun hcon => hw (List.get?_mem hcon)

/-- A buffer entirely free of the byte `36` scans to no match. -/
theorem scan_clean (w : List Nat) (cfgs : List PConfig) (hw : (36 : Nat) ∉ w) :
    scanLoop w swPrefixBytes cfgs 0 = none :=
  scan_clean_from w cfgs 0 (fun q _ _ => get?_ne_of_not_mem w hw q)

/-! ### The chunk splitter on decomposed buffers -/

/-- `extractPlaceholderChunk` when the scan finds nothing: pass the whole
chunk through if final, otherwise retain the trailing window. -/
theorem extract_no_match (w P : List Nat) (cfgs : List PConfig) (isFinal : Bool)
    (hscan : scanLoop w P cfgs 0 = none) :
    extractPlaceholderChunk w P cfgs isFinal
      = if isFinal then ⟨none, some w, none, none⟩
        else if w.length > LAST_BYTES_COUNT then
          ⟨none, some (w.take (w.length - LAST_BYTES_COUNT)), none,
            some (w.drop (w.length - LAST_BYTES_COUNT))⟩
        else ⟨none, none, none, some w⟩ := by
  unfold extractPlaceholderChunk
  rw [hscan]

/-- `extractPlaceholderChunk` on a chunk `u ++ ($sw ++ (S ++ v))` with `u`
free of `36`, for the single candidate with suffix `S`: the chunk splits into
`before = u`, the match, and `after = v`, with no leftover. -/
theorem extract_token (u S v : List Nat) (cfg : PConfig)
    (hcfg : cfg.placeholderBytes = S) (h2 : 2 ≤ S.length) (hu : (36 : Nat) ∉ u)
    (isFinal : Bool) :
    extractPlaceholderChunk (u ++ (swPrefixBytes ++ (S ++ v))) swPrefixBytes [cfg]
        isFinal
      = ⟨some ⟨cfg, S.length, (u.length : Int), u.length + 3 + S.length - 1⟩,
          some u, some v, none⟩ := by
  unfold extractPlaceholderChunk
  rw [scan_finds_token u S v cfg hcfg h2 hu 0 (by omega)]
  dsimp only
  have hbefore : jsSliceTo (u ++ (swPrefixBytes ++ (S ++ v))) (u.length : Int) = u := by
    unfold jsSliceTo
    rw [if_neg (by omega)]
    rw [Int.toNat_natCast]
    exact List.take_left u _
  have hafter : (u ++ (swPrefixBytes ++ (S ++ v))).drop
      (u.length + 3 + S.length - 1 + 1) = v := by
    have h1 : u.length + 3 + S.length - 1 + 1 = u.length + (3 + S.length) := by
      omega
    rw [h1]
    have hd := List.drop_drop (3 + S.length) u.length
      (u ++ (swPrefixBytes ++ (S ++ v)))
    rw [List.drop_left] at hd
    rw [← hd]
    have hd2 := List.drop_drop S.length 3 (swPrefixBytes ++ (S ++ v))
    rw [show (swPrefixBytes ++ (S ++ v)).drop 3 = S ++ v from
      List.drop_left' rfl] at hd2
    rw [← hd2, List.drop_left]
  rw [hbefore, hafter]

/-- Taking `s` bytes of `pre ++ ($sw ++ (S ++ post))` when the cut falls
before the end of the token: a piece of `pre` plus a proper prefix of the
token. -/
theorem body_take_N (S pre post : List Nat) (s : Nat)
    (hN : s < pre.length + (3 + S.length)) :
    (pre ++ (swPrefixBytes ++ (S ++ post))).take s
      = pre.take s ++ (swPrefixBytes ++ S).take (s - pre.length) := by
  rw [List.take_append_eq_append_take]
  congr 1
  rw [← List.append_assoc]
  exact List.take_append_of_le_length (by simp [swPrefixBytes]; omega)

/-- Taking `s` bytes of the body when the cut falls at or after the end of the
token: all of `pre`, the whole token, and a piece of `post`. -/
theorem body_take_M (S pre post : List Nat) (s : Nat)
    (hM : pre.length + (3 + S.length) ≤ s) :
    (pre ++ (swPrefixBytes ++ (S ++ post))).take s
      = pre ++ (swPrefixBytes ++
          (S ++ post.take (s - (pre.length + (3 + S.length))))) := by
  rw [List.take_append_eq_append_take,
    List.take_of_length_le (show pre.length ≤ s by omega)]
  congr 1
  rw [← List.append_assoc, List.take_append_eq_append_take,
    List.take_of_length_le
      (show (swPrefixBytes ++ S).length ≤ s - pre.length by
        simp [swPrefixBytes]; omega)]
  have h3 : s - pre.length - (swPrefixBytes ++ S).length
      = s - (pre.length + (3 + S.length)) := by
    simp [swPrefixBytes]
    omega
  rw [h3, List.append_assoc]

/-- Dropping `s` bytes of the body when the cut falls at or after the end of
the token: the matching piece of `post`. -/
theorem body_drop_M (S pre post : List Nat) (s : Nat)
    (hM : pre.length + (3 + S.length) ≤ s) :
    (pre ++ (swPrefixBytes ++ (S ++ post))).drop s
      = post.drop (s - (pre.length + (3 + S.length))) := by
  rw [List.drop_append_eq_append_drop,
    List.drop_eq_nil_of_le (show pre.length ≤ s by omega), List.nil_append,
    ← List.append_assoc, List.drop_append_eq_append_drop,
    List.drop_eq_nil_of_le
      (show (swPrefixBytes ++ S).length ≤ s - pre.length by
        simp [swPrefixBytes]; omega), List.nil_append]
  congr 1
  simp [swPrefixBytes]
  omega

/-- The trailing window of a cut buffer glued to the remainder restores the
original tail: `(B.take s).drop k ++ B.drop s = B.drop k` for `k ≤ s`. -/
theorem take_drop_glue (B : List Nat) (k s : Nat) (hk : k ≤ s) :
    (B.take s).drop k ++ B.drop s = B.drop k := by
  have h1 : (B.take s).drop k = (B.drop k).take (s - k) := List.drop_take s k B
  have h2 : B.drop s = (B.drop k).drop (s - k) := by
    rw [List.drop_drop]
    congr 1
    omega
  rw [h1, h2, List.take_append_drop]

/-- Sound direction of the prefix run: if it reports the full prefix length,
the buffer agrees with the prefix over the run and the pointer advanced by
exactly the remaining prefix length. -/
theorem matchPrefixLoopAux_sound (bytes prefixBytes : List Nat) :
    ∀ (fuel p k : Nat),
      (matchPrefixLoopAux bytes prefixBytes fuel p k).2 = prefixBytes.length →
      k ≤ prefixBytes.length ∧
      (matchPrefixLoopAux bytes prefixBytes fuel p k).1
        = p + (prefixBytes.length - k) ∧
      ∀ j, j < prefixBytes.length - k →
        bytes.get? (p + j) = prefixBytes.get? (k + j) := by
  intro fuel
  induction fuel with
  | zero =>
      intro p k hk
      simp only [matchPrefixLoopAux] at hk ⊢
      exact ⟨le_of_eq hk, by omega, fun j hj => absurd hj (by omega)⟩
  | succ fuel ih =>
      intro p k hk
      rw [matchPrefixLoopAux] at hk ⊢
      by_cases hc : (bytes.get? p == prefixBytes.get? k) ∧
          k < prefixBytes.length ∧ p < bytes.length
      · rw [if_pos hc] at hk ⊢
        obtain ⟨hk1, hres, hag⟩ := ih (p + 1) (k + 1) hk
        refine ⟨by omega, by rw [hres]; omega, ?_⟩
        intro j hj
        match j with
        | 0 =>
            simpa using eq_of_beq hc.1
        | j' + 1 =>
            have e1 : p + (j' + 1) = p + 1 + j' := by omega
            have e2 : k + (j' + 1) = k + 1 + j' := by omega
            rw [e1, e2]
            exact hag j' (by omega)
      · rw [if_neg hc] at hk ⊢
        exact ⟨le_of_eq hk, by omega, fun j hj => absurd hj (by omega)⟩

/-- Sound direction of the prefix run, from `prefixIdx = 0`: a full-prefix
report means the prefix occurs verbatim at the start position. -/
theorem matchPrefixLoop_sound (bytes prefixBytes : List Nat) (p : Nat)
    (h : (matchPrefixLoop bytes prefixBytes p 0).2 = prefixBytes.length) :
    (matchPrefixLoop bytes prefixBytes p 0).1 = p + prefixBytes.length ∧
    ∀ j, j < prefixBytes.length → bytes.get? (p + j) = prefixBytes.get? j := by
  unfold matchPrefixLoop at h ⊢
  obtain ⟨-, hres, hag⟩ := matchPrefixLoopAux_sound bytes prefixBytes
    (bytes.length - p) p 0 h
  exact ⟨by rw [hres]; omega, fun j hj => by simpa using hag j (by omega)⟩

/-- Sound direction of `findMatchingPlaceholder` for a single candidate with a
suffix of at least two bytes: a reported match means the suffix occurs at the
start position, and the record is fully determined. -/
theorem find_single_sound (w S P : List Nat) (cfg : PConfig)
    (hcfg : cfg.placeholderBytes = S) (h2 : 2 ≤ S.length) (i₀ : Nat)
    (m : MatchData) (hm : findMatchingPlaceholder w i₀ P [cfg] = some m) :
    S <+: w.drop i₀ ∧
    m = ⟨cfg, S.length, (i₀ : Int) - P.length, i₀ + S.length - 1⟩ := by
  by_cases hpre : S <+: w.drop i₀
  · rw [find_single_found w S P cfg hcfg h2 i₀ hpre] at hm
    exact ⟨hpre, (Option.some.inj hm).symm⟩
  · rw [find_single_none w S P cfg hcfg h2 i₀ hpre] at hm
    cases hm

/-- Sound direction of the scan loop for a single candidate with a suffix of
at least two bytes: a reported match means the full token `$sw ++ S` occurs at
some position `q`, and the record carries `start = q` and
`end = q + 3 + |S| - 1`. -/
theorem scan_single_sound (w S : List Nat) (cfg : PConfig)
    (hcfg : cfg.placeholderBytes = S) (h2 : 2 ≤ S.length) (p : Nat)
    (m : MatchData) (hm : scanLoop w swPrefixBytes [cfg] p = some m) :
    ∃ q, (swPrefixBytes ++ S) <+: w.drop q ∧
      m = ⟨cfg, S.length, (q : Int), q + 3 + S.length - 1⟩ := by
  rw [scanLoop_unfold] at hm
  by_cases hp : p < w.length
  · rw [if_pos hp] at hm
    have hge := matchPrefixLoop_ge w swPrefixBytes p 0
    by_cases hfull : (matchPrefixLoop w swPrefixBytes p 0).2 = swPrefixBytes.length ∧
        (matchPrefixLoop w swPrefixBytes p 0).1 < w.length
    · rw [if_pos hfull] at hm
      obtain ⟨hres, hag⟩ := matchPrefixLoop_sound w swPrefixBytes p hfull.1
      rcases hfind : findMatchingPlaceholder w
          (matchPrefixLoop w swPrefixBytes p 0).1 swPrefixBytes [cfg] with - | m'
      · rw [hfind] at hm
        exact scan_single_sound w S cfg hcfg h2 _ m hm
      · rw [hfind] at hm
        obtain ⟨hS, hm'⟩ := find_single_sound w S swPrefixBytes cfg hcfg h2 _ m' hfind
        have hswl : swPrefixBytes.length = 3 := rfl
        rw [hswl] at hres
        have htake3 : (w.drop p).take 3 = swPrefixBytes := by
          apply List.ext_get?
          intro n
          rcases Nat.lt_or_ge n 3 with hn | hn
          · rw [List.get?_take hn, List.get?_drop]
            rw [hag n (by rw [hswl]; omega)]
          · have hlen3 : ((w.drop p).take 3).length = 3 := by
              rw [List.length_take, List.length_drop]
              omega
            rw [List.get?_eq_none.mpr
                (show ((w.drop p).take 3).length ≤ n by omega),
              List.get?_eq_none.mpr
                (show swPrefixBytes.length ≤ n by rw [hswl]; omega)]
        have hz : w.drop (p + 3) = (w.drop p).drop 3 := by
          rw [List.drop_drop]
        rw [hres] at hS
        obtain ⟨t, ht⟩ := hS
        refine ⟨p, ⟨t, ?_⟩, ?_⟩
        · rw [List.append_assoc, ht, hz, ← htake3, List.take_append_drop]
        · have hmm : m = m' := Option.some.inj hm.symm
          rw [hmm, hm', hres, hswl]
          simp only [MatchData.mk.injEq, eq_self_iff_true, true_and, and_true]
          push_cast
          ring
    · rw [if_neg hfull] at hm
      exact scan_single_sound w S cfg hcfg h2 _ m hm
  · rw [if_neg hp] at hm
    cases hm
termination_by w.length - p
decreasing_by
  · omega
  · omega

/-- Two still-viable candidates `[A, B]` with `B`'s suffix a strict prefix of
`A`'s, both matched so far: the loop stops when `B` (the shorter) completes,
but both candidates survive the `matched` filter, in list order, with `A`
first. -/
theorem findLoop_two_found (w SA SB : List Nat) (A B : PConfig) (i₀ j : Nat)
    (hj1 : 1 ≤ j) (hjS : j < SB.length) (hlt : SB.length < SA.length)
    (htk : SA.take SB.length = SB) (hpre : SB <+: w.drop i₀) :
    findLoop w (i₀ + j) j
        [⟨A, SA, SA.length, true, false⟩, ⟨B, SB, SB.length, true, false⟩]
        false false
      = (i₀ + SB.length,
          [⟨A, SA, SA.length, true, false⟩, ⟨B, SB, SB.length, true, true⟩],
          true) := by
  obtain ⟨t, ht⟩ := hpre
  have hbyte : w.get? (i₀ + j) = SB.get? j := by
    have h := List.get?_drop w i₀ j
    rw [← ht, List.get?_append hjS] at h
    exact h.symm
  have hbyteA : SA.get? j = SB.get? j := by
    rw [← htk, List.get?_take hjS]
  have hjlt : i₀ + j < w.length := by
    have hsome : SB.get? j = some (SB.get ⟨j, hjS⟩) := List.get?_eq_get hjS
    obtain ⟨hlt', -⟩ := List.get?_eq_some.mp (hbyte.trans hsome)
    exact hlt'
  rw [findLoop_unfold]
  rw [if_pos ⟨hjlt, by simp, rfl, rfl⟩]
  simp only [List.map_cons, List.map_nil]
  have hstepA : stepCand w (i₀ + j) j ⟨A, SA, SA.length, true, false⟩
      = ⟨A, SA, SA.length, true, false⟩ := by
    simp only [stepCand, if_pos (show j < SA.length by omega), Bool.true_and,
      hbyte, hbyteA]
    simp [show j ≠ SA.length - 1 by omega]
  have hstepB : stepCand w (i₀ + j) j ⟨B, SB, SB.length, true, false⟩
      = ⟨B, SB, SB.length, true, j == SB.length - 1⟩ := by
    simp only [stepCand, hjS, if_pos, if_true, Bool.true_and, hbyte]
    rcases h : (j == SB.length - 1) with - | -
    · simp [h, beq_self_eq_true]
    · simp [h, beq_self_eq_true]
  rw [hstepA, hstepB]
  by_cases hlast : j = SB.length - 1
  · have hl : (j == SB.length - 1) = true := by simp [hlast]
    rw [hl]
    simp only [Bool.and_true, Bool.true_and, Bool.and_false, Bool.false_and,
      List.any_cons, List.any_nil, List.all_cons, List.all_nil, List.filter,
      Bool.or_false, Bool.false_or]
    rw [findLoop_unfold]
    rw [if_neg (fun hcond => by simpa using hcond.2.2.2)]
    have harith : i₀ + j + 1 = i₀ + SB.length := by omega
    rw [harith]
  · have hl : (j == SB.length - 1) = false := by simp [hlast]
    rw [hl]
    simp only [Bool.and_true, Bool.true_and, Bool.and_false, Bool.false_and,
      List.any_cons, List.any_nil, List.all_cons, List.all_nil, List.filter,
      Bool.or_false, Bool.false_or]
    have harith : i₀ + j + 1 = i₀ + (j + 1) := by omega
    rw [harith]
    exact findLoop_two_found w SA SB A B i₀ (j + 1) (by omega) (by omega) hlt htk
      ⟨t, ht⟩
termination_by SB.length - j

/-! ### Running the stream machine phase by phase -/

/-- An `if` whose condition is the false literal equation reduces. -/
theorem ite_false_true {α : Sort u_1} (a b : α) : (if false = true then a else b) = b := rfl

/-- An `if` whose condition is the true literal equation reduces. -/
theorem ite_true_true {α : Sort u_1} (a b : α) : (if true = true then a else b) = a := rfl

/-- Pass-through phase: with a leftover item at the head of the queue, a
pending upstream read behind it, and every remaining byte free of `36`, the
stream emits everything and closes. -/
theorem pull_phaseC (resolve : PConfig → Option (List Nat)) (cfgs : List PConfig)
    (rest : List (List Nat)) (L out : List Nat)
    (hL : (36 : Nat) ∉ L) (hrest : ∀ c ∈ rest, (36 : Nat) ∉ c) :
    ∃ n, pullRun resolve cfgs n
        ⟨[.resolved (some L) false true false, .readChunk], rest, false, out⟩
      = .closed (out ++ (L ++ rest.flatten)) := by
  induction rest generalizing L out with
  | nil =>
      refine ⟨2, ?_⟩
      have hext := extract_no_match L swPrefixBytes cfgs true (scan_clean L cfgs hL)
      show pullRun resolve cfgs (1 + 1) _ = _
      simp only [pullRun, resolveQItem, mergeLoop, if_true, if_false, Bool.false_or,
        Bool.or_false, Bool.not_true, Bool.not_false, Bool.and_true, Bool.true_and,
        Bool.false_and, Option.getD_some, Option.getD_none, List.append_nil, ite_false_true, ite_true_true, hext]
      simp
  | cons c r ih =>
      have hclean : (36 : Nat) ∉ L ++ c := by
        simp only [List.mem_append]
        rintro (h | h)
        · exact hL h
        · exact hrest c (by simp) h
      have hjoin : (c :: r).flatten = c ++ r.flatten := rfl
      have hext := extract_no_match (L ++ c) swPrefixBytes cfgs false
        (scan_clean (L ++ c) cfgs hclean)
      by_cases hlen : (L ++ c).length > LAST_BYTES_COUNT
      · obtain ⟨n, hn⟩ := ih ((L ++ c).drop ((L ++ c).length - LAST_BYTES_COUNT))
          (out ++ (L ++ c).take ((L ++ c).length - LAST_BYTES_COUNT))
          (fun h => hclean (List.mem_of_mem_drop h))
          (fun d hd => hrest d (by simp [hd]))
        refine ⟨n + 1, ?_⟩
        have halg : StreamOutcome.closed
            (out ++ (L ++ c).take ((L ++ c).length - LAST_BYTES_COUNT) ++
              ((L ++ c).drop ((L ++ c).length - LAST_BYTES_COUNT) ++ r.flatten))
            = StreamOutcome.closed (out ++ (L ++ (c :: r).flatten)) := by
          rw [hjoin, List.append_assoc out, ← List.append_assoc
            ((L ++ c).take ((L ++ c).length - LAST_BYTES_COUNT)),
            List.take_append_drop, List.append_assoc]
        simp only [pullRun, resolveQItem, mergeLoop, if_true, if_false, Bool.false_or,
          Bool.or_false, Bool.not_true, Bool.not_false, Bool.and_true, Bool.true_and,
          Bool.false_and, Option.getD_some, Option.getD_none, List.append_nil, ite_false_true, ite_true_true, hext]
        rw [if_pos hlen]
        exact hn.trans halg
      · obtain ⟨n, hn⟩ := ih (L ++ c) out hclean (fun d hd => hrest d (by simp [hd]))
        refine ⟨n + 1, ?_⟩
        have halg : StreamOutcome.closed (out ++ ((L ++ c) ++ r.flatten))
            = StreamOutcome.closed (out ++ (L ++ (c :: r).flatten)) := by
          rw [hjoin, List.append_assoc]
        have hrec : extractPlaceholderChunk (L ++ c) swPrefixBytes cfgs false
            = ⟨none, none, none, some (L ++ c)⟩ := by
          rw [hext, ite_false_true, if_neg hlen]
        simp only [pullRun, resolveQItem, mergeLoop, if_true, if_false, Bool.false_or,
          Bool.or_false, Bool.not_true, Bool.not_false, Bool.and_true, Bool.true_and,
          Bool.false_and, Option.getD_some, Option.getD_none, List.append_nil, ite_false_true, ite_true_true, hrec]
        exact hn.trans halg

/-- Fragment tail phase: the fragment's trailing window is merged with the
`after` bytes of the match, then the stream passes everything through. -/
theorem pull_phaseB2 (resolve : PConfig → Option (List Nat)) (cfgs : List PConfig)
    (rest : List (List Nat)) (fL a0 out : List Nat)
    (hfL : (36 : Nat) ∉ fL) (ha0 : (36 : Nat) ∉ a0)
    (hrest : ∀ c ∈ rest, (36 : Nat) ∉ c) :
    ∃ n, pullRun resolve cfgs n
        ⟨[.resolved (some fL) false true false,
          .resolved (some a0) false false false, .readChunk], rest, false, out⟩
      = .closed (out ++ (fL ++ (a0 ++ rest.flatten))) := by
  have hclean : (36 : Nat) ∉ fL ++ a0 := by
    simp only [List.mem_append]
    rintro (h | h)
    · exact hfL h
    · exact ha0 h
  have hext := extract_no_match (fL ++ a0) swPrefixBytes cfgs false
    (scan_clean (fL ++ a0) cfgs hclean)
  by_cases hlen : (fL ++ a0).length > LAST_BYTES_COUNT
  · obtain ⟨n, hn⟩ := pull_phaseC resolve cfgs rest
      ((fL ++ a0).drop ((fL ++ a0).length - LAST_BYTES_COUNT))
      (out ++ (fL ++ a0).take ((fL ++ a0).length - LAST_BYTES_COUNT))
      (fun h => hclean (List.mem_of_mem_drop h)) hrest
    refine ⟨n + 1, ?_⟩
    have halg : StreamOutcome.closed
        (out ++ (fL ++ a0).take ((fL ++ a0).length - LAST_BYTES_COUNT) ++
          ((fL ++ a0).drop ((fL ++ a0).length - LAST_BYTES_COUNT) ++ rest.flatten))
        = StreamOutcome.closed (out ++ (fL ++ (a0 ++ rest.flatten))) := by
      rw [List.append_assoc out, ← List.append_assoc
        ((fL ++ a0).take ((fL ++ a0).length - LAST_BYTES_COUNT)),
        List.take_append_drop, List.append_assoc]
    have hrec : extractPlaceholderChunk (fL ++ a0) swPrefixBytes cfgs false
        = ⟨none, some ((fL ++ a0).take ((fL ++ a0).length - LAST_BYTES_COUNT)), none,
            some ((fL ++ a0).drop ((fL ++ a0).length - LAST_BYTES_COUNT))⟩ := by
      rw [hext, ite_false_true, if_pos hlen]
    simp only [pullRun, resolveQItem, mergeLoop, if_true, if_false, Bool.false_or,
      Bool.or_false, Bool.not_true, Bool.not_false, Bool.and_true, Bool.true_and,
      Bool.false_and, Option.getD_some, Option.getD_none, List.append_nil,
      ite_false_true, ite_true_true, hrec]
    exact hn.trans halg
  · obtain ⟨n, hn⟩ := pull_phaseC resolve cfgs rest (fL ++ a0) out hclean hrest
    refine ⟨n + 1, ?_⟩
    have halg : StreamOutcome.closed (out ++ ((fL ++ a0) ++ rest.flatten))
        = StreamOutcome.closed (out ++ (fL ++ (a0 ++ rest.flatten))) := by
      rw [List.append_assoc]
    have hrec : extractPlaceholderChunk (fL ++ a0) swPrefixBytes cfgs false
        = ⟨none, none, none, some (fL ++ a0)⟩ := by
      rw [hext, ite_false_true, if_neg hlen]
    simp only [pullRun, resolveQItem, mergeLoop, if_true, if_false, Bool.false_or,
      Bool.or_false, Bool.not_true, Bool.not_false, Bool.and_true, Bool.true_and,
      Bool.false_and, Option.getD_some, Option.getD_none, List.append_nil,
      ite_false_true, ite_true_true, hrec]
    exact hn.trans halg

/-- Fragment phase: a pending fragment fetch at the head of the queue (the
resolver succeeding with `36`-free bytes) is emitted in document order before
the `after` bytes and the remaining upstream chunks. -/
theorem pull_phaseB1 (resolve : PConfig → Option (List Nat)) (cfgs : List PConfig)
    (cfg : PConfig) (frag : List Nat) (rest : List (List Nat)) (a0 out : List Nat)
    (hres : resolve cfg = some frag) (hfrag : (36 : Nat) ∉ frag)
    (ha0 : (36 : Nat) ∉ a0) (hrest : ∀ c ∈ rest, (36 : Nat) ∉ c) :
    ∃ n, pullRun resolve cfgs n
        ⟨[.fragFetch cfg, .resolved (some a0) false false false, .readChunk],
          rest, false, out⟩
      = .closed (out ++ (frag ++ (a0 ++ rest.flatten))) := by
  have hext := extract_no_match frag swPrefixBytes cfgs false
    (scan_clean frag cfgs hfrag)
  by_cases hlen : frag.length > LAST_BYTES_COUNT
  · obtain ⟨n, hn⟩ := pull_phaseB2 resolve cfgs rest
      (frag.drop (frag.length - LAST_BYTES_COUNT)) a0
      (out ++ frag.take (frag.length - LAST_BYTES_COUNT))
      (fun h => hfrag (List.mem_of_mem_drop h)) ha0 hrest
    refine ⟨n + 1, ?_⟩
    have halg : StreamOutcome.closed
        (out ++ frag.take (frag.length - LAST_BYTES_COUNT) ++
          (frag.drop (frag.length - LAST_BYTES_COUNT) ++ (a0 ++ rest.flatten)))
        = StreamOutcome.closed (out ++ (frag ++ (a0 ++ rest.flatten))) := by
      rw [List.append_assoc out, ← List.append_assoc
        (frag.take (frag.length - LAST_BYTES_COUNT)),
        List.take_append_drop]
    have hrec : extractPlaceholderChunk frag swPrefixBytes cfgs false
        = ⟨none, some (frag.take (frag.length - LAST_BYTES_COUNT)), none,
            some (frag.drop (frag.length - LAST_BYTES_COUNT))⟩ := by
      rw [hext, ite_false_true, if_pos hlen]
    simp only [pullRun, resolveQItem, mergeLoop, if_true, if_false, Bool.false_or,
      Bool.or_false, Bool.not_true, Bool.not_false, Bool.and_true, Bool.true_and,
      Bool.false_and, Option.getD_some, Option.getD_none, List.append_nil,
      ite_false_true, ite_true_true, hres, hrec]
    exact hn.trans halg
  · obtain ⟨n, hn⟩ := pull_phaseB2 resolve cfgs rest frag a0 out hfrag ha0 hrest
    refine ⟨n + 1, ?_⟩
    have hrec : extractPlaceholderChunk frag swPrefixBytes cfgs false
        = ⟨none, none, none, some frag⟩ := by
      rw [hext, ite_false_true, if_neg hlen]
    simp only [pullRun, resolveQItem, mergeLoop, if_true, if_false, Bool.false_or,
      Bool.or_false, Bool.not_true, Bool.not_false, Bool.and_true, Bool.true_and,
      Bool.false_and, Option.getD_some, Option.getD_none, List.append_nil,
      ite_false_true, ite_true_true, hres, hrec]
    exact hn

/-- Search phase: while the emitted bytes plus the carried window still end
strictly before the end of the single configured token, the stream eventually
emits exactly `pre ++ frag ++ post`, whatever the remaining chunking.  The
invariant: `out ++ L` is a prefix of the body `pre ++ ($sw ++ (S ++ post))`
ending inside `pre` or inside the token. -/
theorem pull_phaseA (resolve : PConfig → Option (List Nat)) (cfg : PConfig)
    (S pre post frag : List Nat)
    (hcfg : cfg.placeholderBytes = S) (h2 : 2 ≤ S.length) (hSd : (36 : Nat) ∉ S)
    (htok : 3 + S.length ≤ LAST_BYTES_COUNT)
    (hres : resolve cfg = some frag) (hfrag : (36 : Nat) ∉ frag)
    (hpre : (36 : Nat) ∉ pre) (hpost : (36 : Nat) ∉ post) :
    ∀ (rest : List (List Nat)) (L out : List Nat),
      out ++ (L ++ rest.flatten) = pre ++ (swPrefixBytes ++ (S ++ post)) →
      out.length ≤ pre.length →
      out.length + L.length < pre.length + (3 + S.length) →
      ∃ n, pullRun resolve [cfg] n
          ⟨[.resolved (some L) false true false, .readChunk], rest, false, out⟩
        = .closed (pre ++ (frag ++ post)) := by
  intro rest
  induction rest with
  | nil =>
      intro L out hinv hout hshort
      exfalso
      have hlen := congrArg List.length hinv
      simp [swPrefixBytes] at hlen
      omega
  | cons c r ih =>
      intro L out hinv hout hshort
      have hflat : (c :: r).flatten = c ++ r.flatten := rfl
      rw [hflat] at hinv
      have hinv2 : out ++ ((L ++ c) ++ r.flatten)
          = pre ++ (swPrefixBytes ++ (S ++ post)) := by
        rw [← hinv]
        simp only [List.append_assoc]
      have hout2 : pre.take out.length = out := by
        have h1 : (out ++ ((L ++ c) ++ r.flatten)).take out.length = out :=
          List.take_left' rfl
        rw [hinv2, List.take_append_of_le_length hout] at h1
        exact h1
      have hwr : (L ++ c) ++ r.flatten
          = pre.drop out.length ++ (swPrefixBytes ++ (S ++ post)) := by
        have h1 : (out ++ ((L ++ c) ++ r.flatten)).drop out.length
            = (L ++ c) ++ r.flatten := List.drop_left out _
        rw [hinv2, List.drop_append_eq_append_drop,
          Nat.sub_eq_zero_of_le hout, List.drop_zero _] at h1
        exact h1.symm
      have hw0 : L ++ c
          = (pre.drop out.length ++ (swPrefixBytes ++ (S ++ post))).take
              (L ++ c).length := by
        rw [← hwr]
        exact (List.take_left' rfl).symm
      have hwtake : L ++ c
          = (pre.drop out.length).take (L ++ c).length
            ++ (swPrefixBytes ++ (S ++ post)).take
                ((L ++ c).length - (pre.length - out.length)) := by
        conv_lhs => rw [hw0]
        rw [List.take_append_eq_append_take, List.length_drop]
      have hPS : (swPrefixBytes ++ S).length = 3 + S.length := by
        simp [swPrefixBytes]
        omega
      by_cases hcls : out.length + (L ++ c).length < pre.length + (3 + S.length)
      · -- the token does not yet complete inside this window
        have hnlt : (L ++ c).length - (pre.length - out.length) < 3 + S.length := by
          omega
        have hw : L ++ c
            = (pre.drop out.length).take (L ++ c).length
              ++ (swPrefixBytes ++ S).take
                  ((L ++ c).length - (pre.length - out.length)) := by
          have h1 : (swPrefixBytes ++ (S ++ post)).take
                ((L ++ c).length - (pre.length - out.length))
              = (swPrefixBytes ++ S).take
                ((L ++ c).length - (pre.length - out.length)) := by
            rw [← List.append_assoc]
            exact List.take_append_of_le_length (by rw [hPS]; omega)
          conv_lhs => rw [hwtake]
          rw [h1]
        have hu36 : (36 : Nat) ∉ (pre.drop out.length).take (L ++ c).length :=
          fun h => hpre (List.mem_of_mem_drop (List.mem_of_mem_take h))
        have hscan : scanLoop (L ++ c) swPrefixBytes [cfg] 0 = none := by
          rw [hw]
          exact scan_no_token_from _ _ S cfg hcfg h2 hSd hu36
            (List.take_prefix _ _)
            (lt_of_le_of_lt (List.length_take_le _ _) hnlt) 0
        have hext := extract_no_match (L ++ c) swPrefixBytes [cfg] false hscan
        by_cases hlen : (L ++ c).length > LAST_BYTES_COUNT
        · have hinv3 : (out ++ (L ++ c).take ((L ++ c).length - LAST_BYTES_COUNT))
              ++ ((L ++ c).drop ((L ++ c).length - LAST_BYTES_COUNT) ++ r.flatten)
              = pre ++ (swPrefixBytes ++ (S ++ post)) := by
            rw [List.append_assoc out, ← List.append_assoc
              ((L ++ c).take ((L ++ c).length - LAST_BYTES_COUNT)),
              List.take_append_drop]
            exact hinv2
          have hlent : ((L ++ c).take ((L ++ c).length - LAST_BYTES_COUNT)).length
              = (L ++ c).length - LAST_BYTES_COUNT := by
            rw [List.length_take]
            omega
          have hlend : ((L ++ c).drop ((L ++ c).length - LAST_BYTES_COUNT)).length
              = LAST_BYTES_COUNT := by
            rw [List.length_drop]
            omega
          obtain ⟨n, hn⟩ := ih ((L ++ c).drop ((L ++ c).length - LAST_BYTES_COUNT))
            (out ++ (L ++ c).take ((L ++ c).length - LAST_BYTES_COUNT))
            hinv3
            (by rw [List.length_append, hlent]; omega)
            (by rw [List.length_append, hlent, hlend]; omega)
          refine ⟨n + 1, ?_⟩
          have hrec : extractPlaceholderChunk (L ++ c) swPrefixBytes [cfg] false
              = ⟨none, some ((L ++ c).take ((L ++ c).length - LAST_BYTES_COUNT)),
                  none, some ((L ++ c).drop ((L ++ c).length - LAST_BYTES_COUNT))⟩ := by
            rw [hext, ite_false_true, if_pos hlen]
          simp only [pullRun, resolveQItem, mergeLoop, if_true, if_false,
            Bool.false_or, Bool.or_false, Bool.not_true, Bool.not_false,
            Bool.and_true, Bool.true_and, Bool.false_and, Option.getD_some,
            Option.getD_none, List.append_nil, ite_false_true, ite_true_true, hrec]
          exact hn
        · obtain ⟨n, hn⟩ := ih (L ++ c) out hinv2 hout (by omega)
          refine ⟨n + 1, ?_⟩
          have hrec : extractPlaceholderChunk (L ++ c) swPrefixBytes [cfg] false
              = ⟨none, none, none, some (L ++ c)⟩ := by
            rw [hext, ite_false_true, if_neg hlen]
          simp only [pullRun, resolveQItem, mergeLoop, if_true, if_false,
            Bool.false_or, Bool.or_false, Bool.not_true, Bool.not_false,
            Bool.and_true, Bool.true_and, Bool.false_and, Option.getD_some,
            Option.getD_none, List.append_nil, ite_false_true, ite_true_true, hrec]
          exact hn
      · -- the token completes inside this window
        have hM : pre.length + (3 + S.length) ≤ out.length + (L ++ c).length := by
          omega
        have hw : L ++ c
            = pre.drop out.length ++ (swPrefixBytes ++ (S ++ post.take
                (out.length + (L ++ c).length - (pre.length + (3 + S.length))))) := by
          have h1 : (pre.drop out.length).take (L ++ c).length
              = pre.drop out.length :=
            List.take_of_length_le (by rw [List.length_drop]; omega)
          have h2' : (swPrefixBytes ++ (S ++ post)).take
                ((L ++ c).length - (pre.length - out.length))
              = swPrefixBytes ++ (S ++ post.take
                  (out.length + (L ++ c).length - (pre.length + (3 + S.length)))) := by
            rw [← List.append_assoc, List.take_append_eq_append_take,
              List.take_of_length_le (le_trans (le_of_eq hPS) (by omega)), hPS]
            have h3 : (L ++ c).length - (pre.length - out.length) - (3 + S.length)
                = out.length + (L ++ c).length - (pre.length + (3 + S.length)) := by
              omega
            rw [h3, List.append_assoc]
          conv_lhs => rw [hwtake]
          rw [h1, h2']
        have hu36 : (36 : Nat) ∉ pre.drop out.length :=
          fun h => hpre (List.mem_of_mem_drop h)
        have hv36 : (36 : Nat) ∉ post.take
            (out.length + (L ++ c).length - (pre.length + (3 + S.length))) :=
          fun h => hpost (List.mem_of_mem_take h)
        have hvpost : post.take
              (out.length + (L ++ c).length - (pre.length + (3 + S.length)))
            ++ r.flatten = post := by
          have h1 := hwr
          rw [hw] at h1
          simp only [List.append_assoc] at h1
          exact List.append_cancel_left (List.append_cancel_left
            (List.append_cancel_left h1))
        have hrclean : ∀ d ∈ r, (36 : Nat) ∉ d := by
          intro d hd hx
          have h1 : (36 : Nat) ∈ r.flatten := List.mem_flatten.mpr ⟨d, hd, hx⟩
          exact hpost (by rw [← hvpost]; exact List.mem_append.mpr (Or.inr h1))
        obtain ⟨n, hn⟩ := pull_phaseB1 resolve [cfg] cfg frag r
          (post.take (out.length + (L ++ c).length - (pre.length + (3 + S.length))))
          pre hres hfrag hv36 hrclean
        refine ⟨n + 1, ?_⟩
        have hrec : extractPlaceholderChunk (L ++ c) swPrefixBytes [cfg] false
            = ⟨some ⟨cfg, S.length, ((pre.drop out.length).length : Int),
                  (pre.drop out.length).length + 3 + S.length - 1⟩,
                some (pre.drop out.length),
                some (post.take
                  (out.length + (L ++ c).length - (pre.length + (3 + S.length)))),
                none⟩ := by
          conv_lhs => rw [hw]
          exact extract_token _ S _ cfg hcfg h2 hu36 false
        have hfix : out ++ pre.drop out.length = pre := by
          calc out ++ pre.drop out.length
              = pre.take out.length ++ pre.drop out.length := by rw [hout2]
            _ = pre := List.take_append_drop _ _
        have halg : StreamOutcome.closed (pre ++ (frag ++ (post.take
              (out.length + (L ++ c).length - (pre.length + (3 + S.length)))
              ++ r.flatten)))
            = StreamOutcome.closed (pre ++ (frag ++ post)) := by
          rw [hvpost]
        simp only [pullRun, resolveQItem, mergeLoop, if_true, if_false,
          Bool.false_or, Bool.or_false, Bool.not_true, Bool.not_false,
          Bool.and_true, Bool.true_and, Bool.false_and, Option.getD_some,
          Option.getD_none, List.append_nil, ite_false_true, ite_true_true, hrec]
        rw [hfix]
        exact hn.trans halg

/-! ### Claims C1, C2, C4 — concrete refutations of the scanner/stream claims -/

/-- C2, counterexample: for a candidate whose suffix part is a single byte
(the placeholder `$swX`, suffix `X`), the scanner reports a match whose
`start`/`end` span is shifted one byte to the right of the token: on the
buffer `ab$swXcd` it reports `start = 3`, `end = 6`, so `before = ab$` keeps
the token's own `$` and `after = d` drops the unrelated byte `c`.  The
concatenation `before ++ (prefix ++ suffix) ++ after` differs from the
original buffer. -/
theorem c2_counterexample :
    (extractPlaceholderChunk [97, 98, 36, 115, 119, 88, 99, 100] swPrefixBytes
        [⟨[88], ['x']⟩] false).found.isSome = true ∧
    ((extractPlaceholderChunk [97, 98, 36, 115, 119, 88, 99, 100] swPrefixBytes
        [⟨[88], ['x']⟩] false).before.getD [])
      ++ (swPrefixBytes ++ [88])
      ++ ((extractPlaceholderChunk [97, 98, 36, 115, 119, 88, 99, 100] swPrefixBytes
        [⟨[88], ['x']⟩] false).after.getD [])
      ≠ [97, 98, 36, 115, 119, 88, 99, 100] := by
  decide

/-- C2 (amended): for a *single* configured candidate whose suffix part has at
least two bytes, the scanner reconstructs exactly: whenever
`extractPlaceholderChunk` reports a match, the returned `before` bytes, the
matched token bytes `$sw ++ S`, and the returned `after` bytes concatenate to
the original buffer, and the reported record belongs to that candidate.  The
unamended claim fails for a single-byte suffix (`c2_counterexample`: the span
is shifted one byte right), and for several candidates the record can belong
to a candidate other than the completing one, with an inconsistent span
(`c4_counterexample`). -/
theorem c2_reconstruction (w S : List Nat) (sfx : List Char) (isFinal : Bool)
    (h2 : 2 ≤ S.length) (m : MatchData)
    (hm : (extractPlaceholderChunk w swPrefixBytes [⟨S, sfx⟩] isFinal).found
      = some m) :
    ((extractPlaceholderChunk w swPrefixBytes [⟨S, sfx⟩] isFinal).before.getD [])
      ++ ((swPrefixBytes ++ S)
        ++ ((extractPlaceholderChunk w swPrefixBytes [⟨S, sfx⟩] isFinal).after.getD []))
      = w ∧ m.config = ⟨S, sfx⟩ := by
  rcases hscan : scanLoop w swPrefixBytes [⟨S, sfx⟩] 0 with - | m'
  · rw [extract_no_match w swPrefixBytes [⟨S, sfx⟩] isFinal hscan] at hm
    split_ifs at hm <;> simp at hm
  · have hrec : extractPlaceholderChunk w swPrefixBytes [⟨S, sfx⟩] isFinal
        = ⟨some m', some (jsSliceTo w m'.start), some (w.drop (m'.endPos + 1)),
            none⟩ := by
      unfold extractPlaceholderChunk
      rw [hscan]
    rw [hrec] at hm ⊢
    have hmm : m = m' := by simpa using hm.symm
    obtain ⟨q, hq, hm'⟩ := scan_single_sound w S ⟨S, sfx⟩ rfl h2 0 m' hscan
    subst hmm
    rw [hm']
    have hslice : jsSliceTo w ((q : Nat) : Int) = w.take q := by
      unfold jsSliceTo
      rw [if_neg (by omega), Int.toNat_natCast]
    have hidx : q + 3 + S.length - 1 + 1 = q + (3 + S.length) := by
      omega
    obtain ⟨t, ht⟩ := hq
    have hPS : ((swPrefixBytes ++ S) ++ t).drop (3 + S.length) = t :=
      List.drop_left' (by simp [swPrefixBytes]; omega)
    have hdrop2 : w.drop (q + (3 + S.length)) = t := by
      have h1 : w.drop (q + (3 + S.length)) = (w.drop q).drop (3 + S.length) := by
        rw [List.drop_drop]
      rw [h1, ← ht, hPS]
    simp only [Option.getD_some]
    refine ⟨?_, by trivial⟩
    rw [hslice, hidx, hdrop2, ht, List.take_append_drop]

/-- Witness for `c2_reconstruction`: on the buffer `a$swh1b` with the single
candidate `h1`, the scanner reports the match record and
`before ++ ($sw ++ h1) ++ after` rebuilds the buffer. -/
theorem c2_witness :
    (extractPlaceholderChunk [97, 36, 115, 119, 104, 49, 98] swPrefixBytes
        [⟨[104, 49], ['h']⟩] false).found
      = some ⟨⟨[104, 49], ['h']⟩, 2, 1, 5⟩ ∧
    ((extractPlaceholderChunk [97, 36, 115, 119, 104, 49, 98] swPrefixBytes
        [⟨[104, 49], ['h']⟩] false).before.getD [])
      ++ ((swPrefixBytes ++ [104, 49])
        ++ ((extractPlaceholderChunk [97, 36, 115, 119, 104, 49, 98] swPrefixBytes
          [⟨[104, 49], ['h']⟩] false).after.getD []))
      = [97, 36, 115, 119, 104, 49, 98] :=
  ⟨by decide,
    (c2_reconstruction [97, 36, 115, 119, 104, 49, 98] [104, 49] ['h'] false
      (by decide) ⟨⟨[104, 49], ['h']⟩, 2, 1, 5⟩ (by decide)).1⟩

/-- C4, counterexample: with the candidate list `[abc, ab]` (suffix bytes
`[97,98,99]` and `[97,98]`, the shorter a strict prefix of the longer) on the
buffer `$swabx`, the shorter candidate `ab` is the one whose full length is
reached first, yet the scanner reports the *longer*, earlier-listed candidate
`abc` (the source takes `candidates[0]`), with `length = 3` and the impossible
span `start = -1`.  This refutes the claimed shortest-first policy. -/
theorem c4_counterexample :
    (findMatchingPlaceholder [36, 115, 119, 97, 98, 120] 3 swPrefixBytes
        [⟨[97, 98, 99], ['a']⟩, ⟨[97, 98], ['b']⟩]).map
          (fun m => (m.config.placeholderBytes, m.length, m.start, m.endPos))
      = some ([97, 98, 99], 3, -1, 4) ∧
    ([97, 98] : List Nat).length < ([97, 98, 99] : List Nat).length := by
  decide

/-- C4 (amended): when more than one candidate is still viable after a prefix
hit — the configured list `[A, B]` with `B`'s suffix a strict prefix of `A`'s
(both at least two bytes) and `B`'s suffix present at the position — the loop
does stop when the shorter candidate `B` completes (the reported `end` is
`B`'s last byte), but the *returned* record is not the completing candidate:
the source takes `candidates[0]`, the first still-matched entry of the
configured list, here `A`, with `A`'s full length and a `start` computed from
it (which can even be negative).  The claimed shortest-completing-wins policy
is refuted by `c4_counterexample`; what holds is completion-time by the
shortest, record by list order. -/
theorem c4_list_order (w SA SB P : List Nat) (A B : PConfig)
    (hA : A.placeholderBytes = SA) (hB : B.placeholderBytes = SB)
    (h2 : 2 ≤ SB.length) (hlt : SB.length < SA.length)
    (htk : SA.take SB.length = SB) (i₀ : Nat) (hSB : SB <+: w.drop i₀) :
    findMatchingPlaceholder w i₀ P [A, B]
      = some ⟨A, SA.length,
          (i₀ : Int) + SB.length - SA.length - P.length,
          i₀ + SB.length - 1⟩ := by
  unfold findMatchingPlaceholder
  simp only [List.map_cons, List.map_nil, hA, hB]
  have hb0 : SB.get? 0 = w.get? i₀ := by
    obtain ⟨t, ht⟩ := hSB
    have h := List.get?_drop w i₀ 0
    rw [← ht, List.get?_append (by omega)] at h
    simpa using h
  have hb0A : SA.get? 0 = SB.get? 0 := by
    rw [← htk, List.get?_take (by omega)]
  have hmB : (SB.get? 0 == w.get? i₀) = true := by
    rw [hb0]
    exact beq_self_eq_true _
  have hmA : (SA.get? 0 == w.get? i₀) = true := by
    rw [hb0A, hb0]
    exact beq_self_eq_true _
  have hfA : (SA.length == 1) = false := beq_eq_false_iff_ne.mpr (by omega)
  have hfB : (SB.length == 1) = false := beq_eq_false_iff_ne.mpr (by omega)
  rw [hmA, hmB, hfA, hfB]
  have hloop := findLoop_two_found w SA SB A B i₀ 1 (by omega) (by omega) hlt
    htk hSB
  rw [hloop]
  simp only [Option.some.injEq, MatchData.mk.injEq, eq_self_iff_true, true_and,
    and_true]
  push_cast
  ring

/-- Witness for `c4_list_order`: `[abc, ab]` on the buffer `$swabx`, the
two-candidate situation of `c4_counterexample`: the record returned is the
longer, earlier-listed `abc` with span `start = -1`, `end = 4`, although the
completing candidate is `ab`. -/
theorem c4_witness :
    ([97, 98] : List Nat) <+: ([36, 115, 119, 97, 98, 120] : List Nat).drop 3 ∧
    findMatchingPlaceholder [36, 115, 119, 97, 98, 120] 3 swPrefixBytes
        [⟨[97, 98, 99], ['a']⟩, ⟨[97, 98], ['b']⟩]
      = some ⟨⟨[97, 98, 99], ['a']⟩, 3, -1, 4⟩ :=
  ⟨by decide,
    by
      have h := c4_list_order [36, 115, 119, 97, 98, 120] [97, 98, 99] [97, 98]
        swPrefixBytes ⟨[97, 98, 99], ['a']⟩ ⟨[97, 98], ['b']⟩ rfl rfl
        (by decide) (by decide) (by decide) 3 (by decide)
      exact h.trans (by decide)⟩

/-- C1, counterexample: the upstream body `$s$swheader$` contains exactly one
complete occurrence of the configured placeholder `$swheader$`, and fragment
resolution succeeds (yielding `HDR`), but the stream emits the body
*unchanged*: the scanner's prefix run consumes `$s` at position 0, fails at
the second `$`, and restarts scanning one byte past it, so the placeholder at
position 2 is never seen.  The claimed output `$s ++ HDR` is not produced. -/
theorem c1_counterexample :
    createStreamRun [⟨[36, 115, 119, 104, 101, 97, 100, 101, 114, 36], "header".toList⟩]
        (fun _ => some [72, 68, 82])
        [[36, 115, 36, 115, 119, 104, 101, 97, 100, 101, 114, 36]] 20
      = .closed [36, 115, 36, 115, 119, 104, 101, 97, 100, 101, 114, 36] ∧
    ([36, 115] : List Nat) ++ [72, 68, 82]
      ≠ [36, 115, 36, 115, 119, 104, 101, 97, 100, 101, 114, 36] := by
  decide

/-- The first pull from the initial queue (one upstream read) proceeds exactly
as from a queue whose head is an empty carried window followed by the read. -/
theorem pull_first (resolve : PConfig → Option (List Nat)) (cfgs : List PConfig)
    (m : Nat) (c : List Nat) (r : List (List Nat)) :
    pullRun resolve cfgs (m + 1) ⟨[.readChunk], c :: r, false, []⟩
      = pullRun resolve cfgs (m + 1)
          ⟨[.resolved (some []) false true false, .readChunk], c :: r, false, []⟩ := rfl

/-- C1 (amended): for an upstream body `pre ++ ($sw ++ (S ++ post))` holding
exactly one complete occurrence of the single configured placeholder
`$sw ++ S` — with the sentinel byte `$` (36) absent from `pre`, `post`, the
suffix `S` and the resolved fragment, the suffix at least two bytes and the
token no longer than the 20-byte carry-over window — if fragment resolution
succeeds, the stream closes having emitted exactly `pre ++ frag ++ post`, for
*every* chunking of the body.  The unamended claim (no condition on stray
sentinel bytes) is refuted by `c1_counterexample`: a second `$` immediately
before the token makes the scanner's prefix run skip the real token, and the
body streams through unsubstituted. -/
theorem c1_stream_rewrites (sfx : List Char) (S pre post frag : List Nat)
    (chunks : List (List Nat)) (resolve : PConfig → Option (List Nat))
    (h2 : 2 ≤ S.length) (hSd : (36 : Nat) ∉ S)
    (htok : 3 + S.length ≤ LAST_BYTES_COUNT)
    (hres : resolve ⟨S, sfx⟩ = some frag) (hfrag : (36 : Nat) ∉ frag)
    (hpre : (36 : Nat) ∉ pre) (hpost : (36 : Nat) ∉ post)
    (hchunks : chunks.flatten = pre ++ (swPrefixBytes ++ (S ++ post))) :
    ∃ fuel, createStreamRun [⟨swPrefixBytes ++ S, sfx⟩] resolve chunks fuel
      = .closed (pre ++ (frag ++ post)) := by
  cases chunks with
  | nil =>
      exfalso
      have hlen := congrArg List.length hchunks
      simp [swPrefixBytes] at hlen
      omega
  | cons c r =>
      obtain ⟨n, hn⟩ := pull_phaseA resolve ⟨S, sfx⟩ S pre post frag rfl h2 hSd
        htok hres hfrag hpre hpost (c :: r) [] []
        (by simpa using hchunks) (by simp) (by simp only [List.length_nil]; omega)
      cases n with
      | zero => simp [pullRun] at hn
      | succ m =>
          refine ⟨m + 1, ?_⟩
          have hcond : ([⟨swPrefixBytes ++ S, sfx⟩] : List CachedPart).all
              (fun c => swPrefixBytes.isPrefixOf c.placeholder) = true := by
            simp [List.isPrefixOf_iff_prefix]
          have henc : encodePlaceholderConfigs [⟨swPrefixBytes ++ S, sfx⟩]
              = some (swPrefixBytes, [⟨S, sfx⟩]) := by
            unfold encodePlaceholderConfigs
            rw [if_pos hcond]
            simp only [List.map_cons, List.map_nil, List.drop_left]
          unfold createStreamRun
          rw [henc]
          exact (pull_first resolve [⟨S, sfx⟩] m c r).trans hn

/-- Witness for `c1_stream_rewrites`: body `A $sw h1 B` chunked as
`[A$][s][wh1B]` (the token split across all three chunks), fragment `X`;
the stream emits `A X B`. -/
theorem c1_witness :
    2 ≤ ([104, 49] : List Nat).length ∧
    (36 : Nat) ∉ ([104, 49] : List Nat) ∧
    ([[65, 36], [115], [119, 104, 49, 66]] : List (List Nat)).flatten
      = [65] ++ (swPrefixBytes ++ ([104, 49] ++ [66])) ∧
    ∃ fuel, createStreamRun [⟨swPrefixBytes ++ [104, 49], ['h']⟩]
        (fun _ => some [88]) [[65, 36], [115], [119, 104, 49, 66]] fuel
      = .closed [65, 88, 66] :=
  ⟨by decide, by decide, by decide,
    c1_stream_rewrites ['h'] [104, 49] [65] [66] [88]
      [[65, 36], [115], [119, 104, 49, 66]] (fun _ => some [88])
      (by decide) (by decide) (by decide) rfl (by decide) (by decide) (by decide)
      (by decide)⟩

/-! ### Claim C3 — split-scan versus whole-buffer scan -/

/-- C3, counterexample: the two-chunk pipeline and the one-buffer scan
disagree.  With the configured placeholder `$swheader$`, first chunk
`AAAAAAAAA$` ++ `$swheader$` ++ `BBBBBBBBBB` and second chunk `CC`: scanning
the concatenation as one buffer finds nothing (the prefix run consumes the
decoy `$` at index 9 together with the token's `$` at index 10 and restarts
past both), while scanning the first chunk as non-final (also no match)
returns a 20-byte carry-over that starts exactly at the token, so the merged
second scan *does* find the match.  The two feeding disciplines do not yield
the same match result. -/
theorem c3_counterexample :
    scanLoop
        ([65, 65, 65, 65, 65, 65, 65, 65, 65, 36, 36, 115, 119, 104, 101, 97,
          100, 101, 114, 36, 66, 66, 66, 66, 66, 66, 66, 66, 66, 66] ++ [67, 67])
        swPrefixBytes [⟨[104, 101, 97, 100, 101, 114, 36], "header".toList⟩] 0
      = none ∧
    (extractPlaceholderChunk
        [65, 65, 65, 65, 65, 65, 65, 65, 65, 36, 36, 115, 119, 104, 101, 97,
          100, 101, 114, 36, 66, 66, 66, 66, 66, 66, 66, 66, 66, 66]
        swPrefixBytes [⟨[104, 101, 97, 100, 101, 114, 36], "header".toList⟩]
        false).found = none ∧
    ((extractPlaceholderChunk
        (((extractPlaceholderChunk
            [65, 65, 65, 65, 65, 65, 65, 65, 65, 36, 36, 115, 119, 104, 101, 97,
              100, 101, 114, 36, 66, 66, 66, 66, 66, 66, 66, 66, 66, 66]
            swPrefixBytes [⟨[104, 101, 97, 100, 101, 114, 36], "header".toList⟩]
            false).leftover.getD []) ++ [67, 67])
        swPrefixBytes [⟨[104, 101, 97, 100, 101, 114, 36], "header".toList⟩]
        true).found).isSome = true := by
  decide

/-- C3 (amended): on a body `pre ++ ($sw ++ (S ++ post))` with the sentinel
byte `$` confined to the token, the suffix at least two bytes and the token no
longer than the 20-byte carry-over window, the two-chunk pipeline (scan the
first chunk non-final, prepend its carry-over to the second chunk, scan the
merge as final) agrees with the one-buffer scan for *every* split point `s`:
both report the same token (the configured candidate) and the same surrounding
pass-through bytes `pre` and `post`.  Without the stray-`$` condition the
equivalence fails (`c3_counterexample`). -/
theorem c3_two_chunk_agrees (sfx : List Char) (S pre post : List Nat) (s : Nat)
    (h2 : 2 ≤ S.length) (hSd : (36 : Nat) ∉ S)
    (htok : 3 + S.length ≤ LAST_BYTES_COUNT)
    (hpre : (36 : Nat) ∉ pre) (hpost : (36 : Nat) ∉ post) :
    (twoChunkScan ((pre ++ (swPrefixBytes ++ (S ++ post))).take s)
        ((pre ++ (swPrefixBytes ++ (S ++ post))).drop s)
        swPrefixBytes [⟨S, sfx⟩]).1 = pre ∧
    ((twoChunkScan ((pre ++ (swPrefixBytes ++ (S ++ post))).take s)
        ((pre ++ (swPrefixBytes ++ (S ++ post))).drop s)
        swPrefixBytes [⟨S, sfx⟩]).2.1.map fun m => m.config) = some ⟨S, sfx⟩ ∧
    (twoChunkScan ((pre ++ (swPrefixBytes ++ (S ++ post))).take s)
        ((pre ++ (swPrefixBytes ++ (S ++ post))).drop s)
        swPrefixBytes [⟨S, sfx⟩]).2.2 = post ∧
    ((extractPlaceholderChunk (pre ++ (swPrefixBytes ++ (S ++ post)))
        swPrefixBytes [⟨S, sfx⟩] true).found.map fun m => m.config)
      = some ⟨S, sfx⟩ ∧
    (extractPlaceholderChunk (pre ++ (swPrefixBytes ++ (S ++ post)))
        swPrefixBytes [⟨S, sfx⟩] true).before = some pre ∧
    (extractPlaceholderChunk (pre ++ (swPrefixBytes ++ (S ++ post)))
        swPrefixBytes [⟨S, sfx⟩] true).after = some post := by
  have hwhole := extract_token pre S post ⟨S, sfx⟩ rfl h2 hpre true
  rcases lt_or_ge s (pre.length + (3 + S.length)) with hN | hM
  · -- the cut falls before the end of the token
    have hc1 : (pre ++ (swPrefixBytes ++ (S ++ post))).take s
        = pre.take s ++ (swPrefixBytes ++ S).take (s - pre.length) :=
      body_take_N S pre post s hN
    have hu36 : (36 : Nat) ∉ pre.take s :=
      fun h => hpre (List.mem_of_mem_take h)
    have hscan : scanLoop ((pre ++ (swPrefixBytes ++ (S ++ post))).take s)
        swPrefixBytes [⟨S, sfx⟩] 0 = none := by
      rw [hc1]
      exact scan_no_token_from _ _ S ⟨S, sfx⟩ rfl h2 hSd hu36
        (List.take_prefix _ _)
        (lt_of_le_of_lt (List.length_take_le _ _) (by omega)) 0
    have hext1 := extract_no_match ((pre ++ (swPrefixBytes ++ (S ++ post))).take s)
      swPrefixBytes [⟨S, sfx⟩] false hscan
    have hlenc1 : ((pre ++ (swPrefixBytes ++ (S ++ post))).take s).length = s := by
      rw [List.length_take]
      simp [swPrefixBytes]
      omega
    by_cases hbig : ((pre ++ (swPrefixBytes ++ (S ++ post))).take s).length
        > LAST_BYTES_COUNT
    · have hrec1 : extractPlaceholderChunk
          ((pre ++ (swPrefixBytes ++ (S ++ post))).take s)
          swPrefixBytes [⟨S, sfx⟩] false
          = ⟨none, some (((pre ++ (swPrefixBytes ++ (S ++ post))).take s).take
                (s - LAST_BYTES_COUNT)), none,
              some (((pre ++ (swPrefixBytes ++ (S ++ post))).take s).drop
                (s - LAST_BYTES_COUNT))⟩ := by
        rw [hext1, ite_false_true, if_pos hbig, hlenc1]
      rw [hlenc1] at hbig
      have hglue : ((pre ++ (swPrefixBytes ++ (S ++ post))).take s).drop
            (s - LAST_BYTES_COUNT)
          ++ (pre ++ (swPrefixBytes ++ (S ++ post))).drop s
          = (pre ++ (swPrefixBytes ++ (S ++ post))).drop (s - LAST_BYTES_COUNT) :=
        take_drop_glue _ (s - LAST_BYTES_COUNT) s (by omega)
      have hdropB : (pre ++ (swPrefixBytes ++ (S ++ post))).drop
            (s - LAST_BYTES_COUNT)
          = pre.drop (s - LAST_BYTES_COUNT) ++ (swPrefixBytes ++ (S ++ post)) := by
        rw [List.drop_append_eq_append_drop,
          Nat.sub_eq_zero_of_le
            (show s - LAST_BYTES_COUNT ≤ pre.length by omega),
          List.drop_zero _]
      have hrec2 : extractPlaceholderChunk
          ((pre ++ (swPrefixBytes ++ (S ++ post))).drop (s - LAST_BYTES_COUNT))
          swPrefixBytes [⟨S, sfx⟩] true
          = ⟨some ⟨⟨S, sfx⟩, S.length,
                ((pre.drop (s - LAST_BYTES_COUNT)).length : Int),
                (pre.drop (s - LAST_BYTES_COUNT)).length + 3 + S.length - 1⟩,
              some (pre.drop (s - LAST_BYTES_COUNT)), some post, none⟩ := by
        rw [hdropB]
        exact extract_token _ S post ⟨S, sfx⟩ rfl h2
          (fun h => hpre (List.mem_of_mem_drop h)) true
      have htt : ((pre ++ (swPrefixBytes ++ (S ++ post))).take s).take
            (s - LAST_BYTES_COUNT)
          = pre.take (s - LAST_BYTES_COUNT) := by
        rw [List.take_take]
        have hmin : min (s - LAST_BYTES_COUNT) s = s - LAST_BYTES_COUNT := by
          omega
        rw [hmin]
        exact List.take_append_of_le_length (by omega)
      refine ⟨?_, ?_, ?_, (by rw [hwhole]; rfl), (by rw [hwhole]), (by rw [hwhole])⟩
      · simp only [twoChunkScan, hrec1, Option.getD_some, hglue, hrec2]
        rw [htt, List.take_append_drop]
      · simp only [twoChunkScan, hrec1, Option.getD_some, hglue, hrec2]
        rfl
      · simp only [twoChunkScan, hrec1, Option.getD_some, hglue, hrec2]
    · have hrec1 : extractPlaceholderChunk
          ((pre ++ (swPrefixBytes ++ (S ++ post))).take s)
          swPrefixBytes [⟨S, sfx⟩] false
          = ⟨none, none, none,
              some ((pre ++ (swPrefixBytes ++ (S ++ post))).take s)⟩ := by
        rw [hext1, ite_false_true, if_neg hbig]
      have hglue : (pre ++ (swPrefixBytes ++ (S ++ post))).take s
          ++ (pre ++ (swPrefixBytes ++ (S ++ post))).drop s
          = pre ++ (swPrefixBytes ++ (S ++ post)) :=
        List.take_append_drop s _
      refine ⟨?_, ?_, ?_, (by rw [hwhole]; rfl), (by rw [hwhole]), (by rw [hwhole])⟩
      · simp only [twoChunkScan, hrec1, Option.getD_some, Option.getD_none,
          hglue, hwhole, List.nil_append]
      · simp only [twoChunkScan, hrec1, Option.getD_some, Option.getD_none,
          hglue, hwhole]
        rfl
      · simp only [twoChunkScan, hrec1, Option.getD_some, Option.getD_none,
          hglue, hwhole]
  · -- the cut falls at or after the end of the token
    have hc1 : (pre ++ (swPrefixBytes ++ (S ++ post))).take s
        = pre ++ (swPrefixBytes ++
            (S ++ post.take (s - (pre.length + (3 + S.length))))) :=
      body_take_M S pre post s hM
    have hc2 : (pre ++ (swPrefixBytes ++ (S ++ post))).drop s
        = post.drop (s - (pre.length + (3 + S.length))) :=
      body_drop_M S pre post s hM
    have hrec1 : extractPlaceholderChunk
        ((pre ++ (swPrefixBytes ++ (S ++ post))).take s)
        swPrefixBytes [⟨S, sfx⟩] false
        = ⟨some ⟨⟨S, sfx⟩, S.length, (pre.length : Int),
              pre.length + 3 + S.length - 1⟩,
            some pre,
            some (post.take (s - (pre.length + (3 + S.length)))), none⟩ := by
      rw [hc1]
      exact extract_token pre S _ ⟨S, sfx⟩ rfl h2 hpre false
    refine ⟨?_, ?_, ?_, (by rw [hwhole]; rfl), (by rw [hwhole]), (by rw [hwhole])⟩
    · simp only [twoChunkScan, hrec1, Option.getD_some]
    · simp only [twoChunkScan, hrec1]
      rfl
    · simp only [twoChunkScan, hrec1, Option.getD_some, hc2]
      exact List.take_append_drop _ post

/-- Witness for `c3_two_chunk_agrees`: body `A $sw h1 B` split in the middle
of the token (`s = 3`): both feeding disciplines report the configured token
with pass-through `A` before and `B` after. -/
theorem c3_witness :
    2 ≤ ([104, 49] : List Nat).length ∧
    (twoChunkScan (([65] ++ (swPrefixBytes ++ ([104, 49] ++ [66]))).take 3)
        (([65] ++ (swPrefixBytes ++ ([104, 49] ++ [66]))).drop 3)
        swPrefixBytes [⟨[104, 49], ['h']⟩]).1 = [65] :=
  ⟨by decide,
    (c3_two_chunk_agrees ['h'] [104, 49] [65] [66] 3 (by decide) (by decide)
      (by decide) (by decide) (by decide)).1⟩

/-! ### Claim C5 — carry-over bound -/

/-- C5, counterexample: the carry-over window is the constant
`LAST_BYTES_COUNT = 20`, not the longest configured token length.  With the
single configured token `$swX$` (prefix `$sw` = 3 bytes plus suffix `X$` =
2 bytes, so 5 bytes in total) and a 21-byte token-free non-final chunk, the
scanner returns a 20-byte carry-over — which exceeds the longest configured
token's byte length, contradicting the claim. -/
theorem c5_counterexample :
    ((extractPlaceholderChunk (List.replicate 21 65) swPrefixBytes
        [⟨[88, 36], ['x']⟩] false).leftover.getD []).length = 20 ∧
    swPrefixBytes.length + ([88, 36] : List Nat).length < 20 := by
  decide

/-- C5, amended: on every scan, the carry-over the scanner returns never
exceeds `LAST_BYTES_COUNT = 20` bytes (the source's assumed maximum
placeholder length) — but not the longest configured token's length, which
may be smaller. -/
theorem c5_leftover_bounded (bytes prefixBytes : List Nat)
    (placeholderConfigs : List PConfig) (isFinal : Bool) (l : List Nat)
    (h : (extractPlaceholderChunk bytes prefixBytes placeholderConfigs isFinal).leftover
          = some l) :
    l.length ≤ LAST_BYTES_COUNT := by
  unfold extractPlaceholderChunk at h
  rcases hscan : scanLoop bytes prefixBytes placeholderConfigs 0 with - | m
  · rw [hscan] at h
    simp only at h
    split at h
    · simp at h
    · split at h
      · next hlen =>
          simp only [ExtractResult.leftover] at h
          obtain rfl : bytes.drop (bytes.length - LAST_BYTES_COUNT) = l := by
            simpa using h
          simp only [List.length_drop]
          omega
      · next hlen =>
          simp only [ExtractResult.leftover] at h
          obtain rfl : bytes = l := by simpa using h
          omega
  · rw [hscan] at h
    simp at h

/-- C5, witness for the amended theorem at a concrete non-final chunk. -/
theorem c5_witness :
    (extractPlaceholderChunk [65] swPrefixBytes [] false).leftover = some [65] ∧
    ([65] : List Nat).length ≤ LAST_BYTES_COUNT :=
  ⟨by decide, c5_leftover_bounded [65] swPrefixBytes [] false [65] (by decide)⟩

/-! ### Claim C6 — trigger-based cache invalidation -/

/-- C6, counterexample: deletion matches `'.' + suffix` as a *substring* of
the stored key, so an entry whose own suffix component is `headerX` — not
among the matched trigger's suffixes, which are exactly `[header]` — is
nevertheless deleted when `header` is invalidated, contradicting the claim
that entries carrying a different suffix are unchanged. -/
theorem c6_counterexample :
    ('.' :: "headerX".toList) <:+ "SiteA.en_US.headerX".toList ∧
    "headerX".toList ∉
      triggeredSuffixes [("Login-Logout".toList, ["header".toList])]
        "Login-Logout".toList ∧
    cleanTriggeredCache [("Login-Logout".toList, ["header".toList])]
      "Login-Logout".toList ["SiteA.en_US.headerX".toList] = [] := by
  decide

/-- C6, amended: after the invalidation check, every stored key that ends in
`'.' + s` for a suffix `s` of the matched trigger is absent — for every
site/locale, since the key's site and locale components are unconstrained —
and a key is unchanged provided no matched suffix preceded by a dot occurs
anywhere inside it (keys merely *containing* a matched dotted suffix are also
deleted, which is what the counterexample exhibits). -/
theorem c6_invalidation (cacheCleanUrls : List (List Char × List (List Char)))
    (shortUrl : List Char) (cacheKeys : List (List Char)) (key : List Char)
    (hk : key ∈ cacheKeys) :
    (∀ s ∈ triggeredSuffixes cacheCleanUrls shortUrl, ('.' :: s) <:+ key →
        key ∉ cleanTriggeredCache cacheCleanUrls shortUrl cacheKeys) ∧
    ((∀ s ∈ triggeredSuffixes cacheCleanUrls shortUrl, ¬ ('.' :: s) <:+: key) →
        key ∈ cleanTriggeredCache cacheCleanUrls shortUrl cacheKeys) := by
  constructor
  · intro s hs hsuf hmem
    have hpred := (List.mem_filter.mp hmem).2
    have hany : ((triggeredSuffixes cacheCleanUrls shortUrl).any
        (fun s => decide (('.' :: s) <:+: key))) = true :=
      List.any_eq_true.mpr ⟨s, hs, by simpa using hsuf.isInfix⟩
    rw [hany] at hpred
    simp at hpred
  · intro hnone
    refine List.mem_filter.mpr ⟨hk, ?_⟩
    have hany : ((triggeredSuffixes cacheCleanUrls shortUrl).any
        (fun s => decide (('.' :: s) <:+: key))) = false := by
      rw [List.any_eq_false]
      intro s hs
      simpa using hnone s hs
    rw [hany]
    rfl

/-- C6, witness: a key carrying the matched suffix is deleted and a key with
an unrelated suffix survives, at a concrete trigger map and cache. -/
theorem c6_witness :
    "SiteA.en.header".toList ∉
      cleanTriggeredCache [("Login-Logout".toList, ["header".toList])]
        "Login-Logout".toList ["SiteA.en.header".toList, "SiteA.en.other".toList] ∧
    "SiteA.en.other".toList ∈
      cleanTriggeredCache [("Login-Logout".toList, ["header".toList])]
        "Login-Logout".toList ["SiteA.en.header".toList, "SiteA.en.other".toList] :=
  ⟨(c6_invalidation [("Login-Logout".toList, ["header".toList])] "Login-Logout".toList
      ["SiteA.en.header".toList, "SiteA.en.other".toList] "SiteA.en.header".toList
      (by decide)).1 "header".toList (by decide) (by decide),
   (c6_invalidation [("Login-Logout".toList, ["header".toList])] "Login-Logout".toList
      ["SiteA.en.header".toList, "SiteA.en.other".toList] "SiteA.en.other".toList
      (by decide)).2 (by decide)⟩

/-! ### Claim C8 — kill switch -/

/-- C8, counterexample: the kill-switch path reuses `clearOldCaches`, which
deletes only caches whose name *differs* from the current `CACHE_ID`; a cache
named with the current generation identifier survives, contradicting the
claim that every cache — including the one named with the current generation
identifier — is cleared. -/
theorem c8_counterexample :
    (installListener (some false) ["Build-1_v1".toList] "Build-1_v1".toList).remainingCaches
      = ["Build-1_v1".toList] ∧
    (installListener (some false) ["Build-1_v1".toList] "Build-1_v1".toList).remainingCaches
      ≠ [] := by
  decide

/-- C8, amended: when the enable flag is strictly `false`, instead of
activating normal behavior the worker deletes every durable cache *except any
named with the current generation identifier*, unregisters itself, and forces
a reload of every open client view; the offline page is not precached and
`skipWaiting` is not called. -/
theorem c8_kill_switch (swEnabled : Option Bool) (cacheNames : List (List Char))
    (cacheId : List Char) (h : swEnabled = some false) :
    installListener swEnabled cacheNames cacheId =
      { remainingCaches := cacheNames.filter (fun n => n == cacheId)
        unregistered := true
        reloadedClients := true
        offlinePrecached := false
        skippedWaiting := false } := by
  subst h
  simp [installListener, clearOldCaches]

/-- C8, witness for the amended theorem at a concrete cache list. -/
theorem c8_witness :
    installListener (some false) ["old_v0".toList, "Build-1_v1".toList] "Build-1_v1".toList =
      { remainingCaches := ["Build-1_v1".toList]
        unregistered := true
        reloadedClients := true
        offlinePrecached := false
        skippedWaiting := false } := by
  have h := c8_kill_switch (some false) ["old_v0".toList, "Build-1_v1".toList]
    "Build-1_v1".toList rfl
  rw [h]
  decide

/-! ### Claim C9 — same-origin side-effect dispatch -/

/-- C9, counterexample: the second dispatch branch tests `request.mode ===
'same-origin'`, not the *URL's* origin.  A request whose URL is same-origin
but whose mode is `cors`, with no keyed-AJAX match and no static-asset match,
falls through every branch to the untouched case — so no invalidation check
is triggered, contradicting the claim. -/
theorem c9_counterexample :
    fetchListener ⟨[], "SiteA".toList, "en".toList⟩
        ⟨"/page".toList, none, none, .cors, true, false⟩ = .passThrough ∧
    (⟨"/page".toList, none, none, .cors, true, false⟩ : FetchRequest).urlSameOrigin = true ∧
    getAjaxCacheConfig ⟨[], "SiteA".toList, "en".toList⟩
        ⟨"/page".toList, none, none, .cors, true, false⟩ = none ∧
    FetchAction.passThrough ≠ FetchAction.invalidateOnly := by
  decide

/-- C9, amended: it is requests whose *mode* is `'same-origin'` (and that are
not dispatched to the keyed-AJAX strategy) that trigger the invalidation-index
check without a response override; same-origin-URL requests with another mode
do not take this branch. -/
theorem c9_dispatch_invalidation (env : SWEnv) (r : FetchRequest)
    (hajax : ¬ (r.urlSameOrigin = true ∧ (getAjaxCacheConfig env r).isSome = true))
    (hmode : r.mode = .sameOriginMode) :
    fetchListener env r = .invalidateOnly := by
  unfold fetchListener
  have hfalse : (r.urlSameOrigin && (getAjaxCacheConfig env r).isSome) = false := by
    rcases hs : r.urlSameOrigin with - | -
    · simp
    · rcases ha : (getAjaxCacheConfig env r).isSome with - | -
      · simp
      · exact absurd ⟨hs, ha⟩ hajax
  rw [hfalse, hmode]
  simp

/-- C9, witness for the amended theorem at a concrete request with mode
`'same-origin'` and no AJAX config. -/
theorem c9_witness :
    fetchListener ⟨[], "SiteA".toList, "en".toList⟩
        ⟨"/page".toList, none, none, .sameOriginMode, true, false⟩ = .invalidateOnly :=
  c9_dispatch_invalidation ⟨[], "SiteA".toList, "en".toList⟩
    ⟨"/page".toList, none, none, .sameOriginMode, true, false⟩ (by decide) rfl

/-! ### Claim C10 — keyed-AJAX cache key -/

/-- C10: the keyed-AJAX cache key is `siteId.locale.cacheSuffix` only.  Two
requests with the same identity headers matching the same cached-URL
configuration — their URLs may differ arbitrarily — share the key: if the
first request misses, fetches successfully and stores, the second is answered
with the first request's response and performs no network fetch. -/
theorem c10_ajax_cache_key (env : SWEnv) (network : FetchRequest → CacheResponse)
    (cache : List (List Char × CacheResponse)) (r1 r2 : FetchRequest) (cfg : UrlConfig)
    (s l : List Char)
    (h1s : r1.siteIdHeader = some s) (h1l : r1.localeHeader = some l)
    (h2s : r2.siteIdHeader = some s) (h2l : r2.localeHeader = some l)
    (hc1 : getAjaxCacheConfig env r1 = some cfg)
    (hc2 : getAjaxCacheConfig env r2 = some cfg)
    (hmiss : cacheMatch cache (s ++ '.' :: l ++ '.' :: cfg.cacheSuffix) = none)
    (hok : (network r1).ok = true) :
    (respondToAjax network cache r1 (some cfg)).1 = network r1 ∧
    (respondToAjax network (respondToAjax network cache r1 (some cfg)).2.2 r2
        (some cfg)).1 = network r1 ∧
    (respondToAjax network (respondToAjax network cache r1 (some cfg)).2.2 r2
        (some cfg)).2.1 = false := by
  have hfirst : respondToAjax network cache r1 (some cfg) =
      (network r1, true,
        cachePut cache (s ++ '.' :: l ++ '.' :: cfg.cacheSuffix) (network r1)) := by
    unfold respondToAjax
    rw [h1s, h1l]
    simp only [Option.getD_some]
    rw [hmiss]
    simp only [hok, if_true]
  have hhit : cacheMatch
      (cachePut cache (s ++ '.' :: l ++ '.' :: cfg.cacheSuffix) (network r1))
      (s ++ '.' :: l ++ '.' :: cfg.cacheSuffix) = some (network r1) := by
    simp [cacheMatch, cachePut]
  have hsecond : respondToAjax network
      (cachePut cache (s ++ '.' :: l ++ '.' :: cfg.cacheSuffix) (network r1)) r2
      (some cfg) =
      (network r1, false,
        cachePut cache (s ++ '.' :: l ++ '.' :: cfg.cacheSuffix) (network r1)) := by
    unfold respondToAjax
    rw [h2s, h2l]
    simp only [Option.getD_some]
    rw [hhit]
  refine ⟨by rw [hfirst], ?_, ?_⟩ <;> rw [hfirst] <;> simp only [hsecond]

/-- C10, witness: two concrete requests with different query strings, the same
identity headers and the same matched configuration; the second is served
from the first's cache entry without fetching. -/
theorem c10_witness :
    (respondToAjax (fun _ => ⟨[1], true⟩)
      (respondToAjax (fun _ => ⟨[1], true⟩) [] c10req1 (some c10cfg)).2.2
      c10req2 (some c10cfg)).2.1 = false :=
  (c10_ajax_cache_key ⟨[c10cfg], "SiteA".toList, "en".toList⟩ (fun _ => ⟨[1], true⟩)
    [] c10req1 c10req2 c10cfg "SiteB".toList "fr".toList
    rfl rfl rfl rfl (by decide) (by decide) (by decide) (by decide)).2.2

/-! ### Claim C7 — navigation error handling -/

/-- C7, counterexample: the `try/catch` of `respondToNavigation` has already
returned by the time the rewritten body streams, so a fragment fetch that
fails during streaming is *not* converted to the offline page: at a concrete
navigation whose 200-status body contains a placeholder and whose fragment
resolver fails, the result is a streamed body that errors after emitting only
the bytes before the placeholder — neither the live page, a redirect, the
auth-recovery page, nor the offline page. -/
theorem c7_counterexample :
    respondToNavigation
        (.response 200 false [[65, 66, 36, 115, 119, 104, 101, 97, 100, 101, 114, 36, 67, 68]])
        [⟨[36, 115, 119, 104, 101, 97, 100, 101, 114, 36], "header".toList⟩]
        (fun _ => none) 20
      = .streamed (.errored [65, 66]) := by
  decide

/-- C7, amended: the navigation *response* always resolves to one of the four
selections — offline page (any failure of the navigation fetch itself),
auth-recovery (401), unmodified pass-through (301/302/opaque redirect), or
the streamed rewritten page; but failures during fragment resolution while
the body is being streamed are outside the catch and error the in-flight
streamed body (see the counterexample) instead of yielding the offline page. -/
theorem c7_navigation_outcomes (outcome : NavFetchOutcome)
    (cachedParts : List CachedPart) (resolve : PConfig → Option (List Nat))
    (fuel : Nat) :
    (respondToNavigation outcome cachedParts resolve fuel = .offlinePage ∨
     respondToNavigation outcome cachedParts resolve fuel = .authRecovery ∨
     (∃ st opq, respondToNavigation outcome cachedParts resolve fuel = .passthrough st opq) ∨
     (∃ so, respondToNavigation outcome cachedParts resolve fuel = .streamed so)) ∧
    respondToNavigation .networkFailure cachedParts resolve fuel = .offlinePage := by
  refine ⟨?_, rfl⟩
  rcases outcome with - | ⟨st, opq, ch⟩
  · exact Or.inl rfl
  · by_cases h401 : st = 401
    · simp [respondToNavigation, h401]
    · by_cases hred : st = 301 ∨ st = 302 ∨ opq = true
      · refine Or.inr (Or.inr (Or.inl ⟨st, opq, ?_⟩))
        simp [respondToNavigation, h401, hred]
      · refine Or.inr (Or.inr (Or.inr
          ⟨createStreamRun cachedParts resolve ch fuel, ?_⟩))
        simp [respondToNavigation, h401, hred]

end SW
